import Mathlib

/-!
# Red-black tree with occurrence counts (`rbt.c`)

A shallow embedding of `src/rbt.c`.  A C pointer `rbt` (possibly `NULL`) to a
heap node becomes a value of the inductive type `rbt K`; every C function that
takes a subtree and returns the (possibly restructured) subtree becomes a pure
function on that type.

Keys are C strings that the code only ever compares through `strcmp`; the
embedding is parametric in the key type `K` together with a linear order, which
is what `strcmp` provides on string contents (byte-lexicographic order).

The `count` field is a C `int` of 32 bits; it is embedded as an `Int`, and the
increment `r->count++` of `rbt_insert_helper` wraps around at `INT_MAX` (`wrap_int`),
as the compiled code does (signed overflow is undefined behaviour in C).  The
decrement `r->count--` of `rbt_delete` is only executed when `r->count > 1` and
cannot overflow.
-/

namespace RBT

/-- The two colours of `rbt_colour`. -/
inductive rbt_colour where
  | RED
  | BLACK
  deriving DecidableEq

/-- A tree handle: `NULL`, or a `struct rbt_node` with its five fields
`key`, `count`, `colour`, `left`, `right`. -/
inductive rbt (K : Type) where
  | NULL : rbt K
  | node (key : K) (count : Int) (colour : rbt_colour) (left right : rbt K) : rbt K
  deriving DecidableEq

open rbt_colour rbt

section Code

variable {K : Type}

/-- The macro `IS_BLACK(x)`: `NULL` counts as black. -/
def IS_BLACK : rbt K → Bool
  | NULL => true
  | node _ _ c _ _ => decide (c = BLACK)

/-- The macro `IS_RED(x)`: `NULL` is not red. -/
def IS_RED : rbt K → Bool
  | NULL => false
  | node _ _ c _ _ => decide (c = RED)

/-- The test `x != NULL` (a pointer used as a condition). -/
def nonNULL : rbt K → Bool
  | NULL => false
  | node _ _ _ _ _ => true

/-- The field read `x->left`.  The C code only evaluates it on a present
node; on `NULL` the embedding yields `NULL`. -/
def left : rbt K → rbt K
  | NULL => NULL
  | node _ _ _ l _ => l

/-- The field read `x->right` (see `left`). -/
def right : rbt K → rbt K
  | NULL => NULL
  | node _ _ _ _ r => r

/-- The assignment `x->colour = c`. -/
def set_colour (c : rbt_colour) : rbt K → rbt K
  | NULL => NULL
  | node k n _ l r => node k n c l r

/-- The assignment `x->left = l`. -/
def set_left (l : rbt K) : rbt K → rbt K
  | NULL => NULL
  | node k n c _ r => node k n c l r

/-- The assignment `x->right = r`. -/
def set_right (r : rbt K) : rbt K → rbt K
  | NULL => NULL
  | node k n c l _ => node k n c l r

/-- The function `rbt_new`. -/
def rbt_new : rbt K := NULL

/-- The function `left_rotate`: `temp = r; r = r->right; temp->right = r->left;
r->left = temp; return r`. -/
def left_rotate (r : rbt K) : rbt K :=
  let temp := r
  let r := right r
  let temp := set_right (left r) temp
  set_left temp r

/-- The function `right_rotate`: `temp = r; r = r->left; temp->left = r->right;
r->right = temp; return r`. -/
def right_rotate (r : rbt K) : rbt K :=
  let temp := r
  let r := left r
  let temp := set_left (right r) temp
  set_right temp r

/-- The colour flip shared by the four branches of `rbt_fix`:
`r->colour = RED; r->left->colour = BLACK; r->right->colour = BLACK`. -/
def colour_flip (r : rbt K) : rbt K :=
  let r := set_colour RED r
  let r := set_left (set_colour BLACK (left r)) r
  set_right (set_colour BLACK (right r)) r

/-- The function `rbt_fix`. The four double-red patterns are tested in the order
of the source; `&&` is the short-circuit conjunction. -/
def rbt_fix (r : rbt K) : rbt K :=
  if !nonNULL r then NULL
  else if IS_RED (left r) && IS_RED (left (left r)) then
    if IS_RED (right r) then colour_flip r
    else
      let r := right_rotate r
      let r := set_colour BLACK r
      set_right (set_colour RED (right r)) r
  else if IS_RED (left r) && IS_RED (right (left r)) then
    if IS_RED (right r) then colour_flip r
    else
      let r := set_left (left_rotate (left r)) r
      let r := right_rotate r
      let r := set_colour BLACK r
      set_right (set_colour RED (right r)) r
  else if IS_RED (right r) && IS_RED (left (right r)) then
    if IS_RED (left r) then colour_flip r
    else
      let r := set_right (right_rotate (right r)) r
      let r := left_rotate r
      let r := set_colour BLACK r
      set_left (set_colour RED (left r)) r
  else if IS_RED (right r) && IS_RED (right (right r)) then
    if IS_RED (left r) then colour_flip r
    else
      let r := left_rotate r
      let r := set_colour BLACK r
      set_left (set_colour RED (left r)) r
  else r

variable [LinearOrder K]

/-- The library function `strcmp`, up to the sign of its result: negative,
zero or positive as the first string is smaller than, equal to or greater than
the second. -/
def strcmp (a b : K) : Int :=
  if a < b then -1 else if b < a then 1 else 0

/-- The greatest value of a C `int`. -/
def INT_MAX : Int := 2147483647

/-- The least value of a C `int`. -/
def INT_MIN : Int := -2147483648

/-- The value a C `int` holds after an arithmetic operation whose mathematical
result is `x`: two's complement wrap-around into `INT_MIN .. INT_MAX`. -/
def wrap_int (x : Int) : Int :=
  (x + 2147483648) % 4294967296 - 2147483648

/-- The function `rbt_insert_helper`; `r->count++` is an `int` increment. -/
def rbt_insert_helper : rbt K → K → rbt K
  | NULL, key => rbt_fix (node key 1 RED NULL NULL)
  | node k c col l r, key =>
    if strcmp key k < 0 then
      rbt_fix (node k c col (rbt_insert_helper l key) r)
    else if strcmp key k > 0 then
      rbt_fix (node k c col l (rbt_insert_helper r key))
    else
      rbt_fix (node k (wrap_int (c + 1)) col l r)

/-- The function `rbt_insert`: insert, then colour the root black. -/
def rbt_insert (r : rbt K) (key : K) : rbt K :=
  set_colour BLACK (rbt_insert_helper r key)

/-- The function `rbt_search`. -/
def rbt_search : rbt K → K → Int
  | NULL, _ => 0
  | node k c _ l r, key =>
    if strcmp key k < 0 then rbt_search l key
    else if strcmp key k > 0 then rbt_search r key
    else c

/-- Number of nodes of a tree. -/
def size : rbt K → Nat
  | NULL => 0
  | node _ _ _ l r => size l + size r + 1

/-- The successor search of `rbt_delete`: `successor = r->right;
while (successor->left) successor = successor->left`.  `successor key count t` is
the `(key, count)` pair of the node at the end of the left spine of `t`; `key` and
`count` are the fields of the node passed last (they are the result on the empty
tree, which `rbt_delete` never asks for: it calls this on the present `r->right`). -/
def successor (key : K) (count : Int) : rbt K → K × Int
  | NULL => (key, count)
  | node k c _ l _ => successor k c l

/-- The two writes `successor->key = swap_key; successor->count = swap_count`
of `rbt_delete`, as seen from the subtree `r->right` the loop walked down: the
node at the end of the left spine receives the new `key` and `count`. -/
def set_successor (key : K) (count : Int) : rbt K → rbt K
  | NULL => NULL
  | node k c col l r =>
    if nonNULL l then node k c col (set_successor key count l) r
    else node key count col l r

/-- The function `rbt_delete`.  `free` has no counterpart: a node that is no
longer part of the returned tree is gone. -/
def rbt_delete : rbt K → K → rbt K
  | NULL, _ => NULL
  | node k c col l r, key =>
    if strcmp key k < 0 then
      node k c col (rbt_delete l key) r
    else if strcmp key k > 0 then
      node k c col l (rbt_delete r key)
    else if c > 1 then
      node k (c - 1) col l r
    else if nonNULL l && nonNULL r then
      let s := successor k c r
      node s.1 s.2 col l (rbt_delete (set_successor k c r) key)
    else if nonNULL l || nonNULL r then
      if nonNULL l then l else r
    else
      NULL
termination_by t _ => size t
decreasing_by
  all_goals simp_wf
  all_goals
    have hs : ∀ t : rbt K, size (set_successor k c t) = size t := by
      intro t
      induction t with
      | NULL => rfl
      | node k' c' col' l' r' ihl _ =>
        unfold set_successor
        split <;> simp [size, ihl]
    simp only [size, hs]
    omega

/-- The sequence of visitor calls `f(r->key)` made by the loop
`for (i = 0; i < r->count; i++)`. -/
def visit (key : K) (count : Int) : List K :=
  List.replicate count.toNat key

/-- The function `rbt_inorder`, as the sequence of keys passed to the visitor. -/
def rbt_inorder : rbt K → List K
  | NULL => []
  | node k c _ l r => rbt_inorder l ++ visit k c ++ rbt_inorder r

/-- The function `rbt_preorder`, as the sequence of keys passed to the visitor. -/
def rbt_preorder : rbt K → List K
  | NULL => []
  | node k c _ l r => visit k c ++ rbt_preorder l ++ rbt_preorder r

/-- The function `rbt_postorder`, as the sequence of keys passed to the visitor. -/
def rbt_postorder : rbt K → List K
  | NULL => []
  | node k c _ l r => rbt_postorder l ++ rbt_postorder r ++ visit k c

end Code

section Spec

variable {K : Type}

/-- The in-order sequence of the `(key, count)` pairs stored in the nodes. -/
def entries : rbt K → List (K × Int)
  | NULL => []
  | node k c _ l r => entries l ++ (k, c) :: entries r

/-- The in-order sequence of the keys stored in the nodes, one per node. -/
def keys : rbt K → List K
  | NULL => []
  | node k _ _ l r => keys l ++ k :: keys r

/-- Height: the number of nodes on a longest path from the root to an empty
position. -/
def height : rbt K → Nat
  | NULL => 0
  | node _ _ _ l r => max (height l) (height r) + 1

/-- Every node has `count >= 1`. -/
def counts_pos : rbt K → Prop
  | NULL => True
  | node _ c _ l r => 1 ≤ c ∧ counts_pos l ∧ counts_pos r

/-- No red node has a red child. -/
def no_red_red : rbt K → Prop
  | NULL => True
  | node _ _ c l r =>
    (c = RED → IS_RED l = false ∧ IS_RED r = false) ∧ no_red_red l ∧ no_red_red r

/-- A red-black tree of black height `n`: no red node has a red child and every
path from the root to an empty position has `n` black nodes. -/
inductive RB : rbt K → Nat → Prop
  | nil : RB NULL 0
  | red {k : K} {c : Int} {l r : rbt K} {n : Nat} :
      IS_RED l = false → IS_RED r = false → RB l n → RB r n → RB (node k c RED l r) n
  | black {k : K} {c : Int} {l r : rbt K} {n : Nat} :
      RB l n → RB r n → RB (node k c BLACK l r) (n + 1)

/-- The sum of the counts of all nodes. -/
def sum_counts : rbt K → Int
  | NULL => 0
  | node _ c _ l r => sum_counts l + c + sum_counts r

/-- The in-order sequence of the nodes, each with its key, count and colour. -/
def nodes : rbt K → List (K × Int × rbt_colour)
  | NULL => []
  | node k c col l r => nodes l ++ (k, c, col) :: nodes r

/-- For every path from the root to an empty position, the number of black nodes
on it (paths listed left to right). -/
def path_blacks : rbt K → List Nat
  | NULL => [0]
  | node _ _ col l r =>
    (path_blacks l ++ path_blacks r).map (fun n => if col = BLACK then n + 1 else n)

/-- The first test of `rbt_fix`: `IS_RED(r->left) && IS_RED(r->left->left)`. -/
def pattern_LL (r : rbt K) : Bool :=
  IS_RED (left r) && IS_RED (left (left r))

/-- The second test of `rbt_fix`: `IS_RED(r->left) && IS_RED(r->left->right)`. -/
def pattern_LR (r : rbt K) : Bool :=
  IS_RED (left r) && IS_RED (right (left r))

/-- The third test of `rbt_fix`: `IS_RED(r->right) && IS_RED(r->right->left)`. -/
def pattern_RL (r : rbt K) : Bool :=
  IS_RED (right r) && IS_RED (left (right r))

/-- The fourth test of `rbt_fix`: `IS_RED(r->right) && IS_RED(r->right->right)`. -/
def pattern_RR (r : rbt K) : Bool :=
  IS_RED (right r) && IS_RED (right (right r))

/-- The branch of `rbt_fix` under its first test (left-left double red). -/
def fix_LL (r : rbt K) : rbt K :=
  if IS_RED (right r) then colour_flip r
  else
    let r := right_rotate r
    let r := set_colour BLACK r
    set_right (set_colour RED (right r)) r

/-- The branch of `rbt_fix` under its second test (left-right double red). -/
def fix_LR (r : rbt K) : rbt K :=
  if IS_RED (right r) then colour_flip r
  else
    let r := set_left (left_rotate (left r)) r
    let r := right_rotate r
    let r := set_colour BLACK r
    set_right (set_colour RED (right r)) r

/-- The branch of `rbt_fix` under its third test (right-left double red). -/
def fix_RL (r : rbt K) : rbt K :=
  if IS_RED (left r) then colour_flip r
  else
    let r := set_right (right_rotate (right r)) r
    let r := left_rotate r
    let r := set_colour BLACK r
    set_left (set_colour RED (left r)) r

/-- The branch of `rbt_fix` under its fourth test (right-right double red). -/
def fix_RR (r : rbt K) : rbt K :=
  if IS_RED (left r) then colour_flip r
  else
    let r := left_rotate r
    let r := set_colour BLACK r
    set_left (set_colour RED (left r)) r

/-- How many of the four double-red patterns of `rbt_fix` match a node. -/
def patterns_matching (r : rbt K) : Nat :=
  (pattern_LL r).toNat + (pattern_LR r).toNat + (pattern_RL r).toNat + (pattern_RR r).toNat

/-- Checked field read `x->left`: undefined (`none`) on an absent node. -/
def read_left : rbt K → Option (rbt K)
  | NULL => none
  | node _ _ _ l _ => some l

/-- Checked field read `x->right`: undefined on an absent node. -/
def read_right : rbt K → Option (rbt K)
  | NULL => none
  | node _ _ _ _ r => some r

/-- Checked assignment `x->colour = c`: undefined on an absent node. -/
def write_colour (c : rbt_colour) : rbt K → Option (rbt K)
  | NULL => none
  | node k n _ l r => some (node k n c l r)

/-- Checked assignment `x->left = l`: undefined on an absent node. -/
def write_left (l : rbt K) : rbt K → Option (rbt K)
  | NULL => none
  | node k n c _ r => some (node k n c l r)

/-- Checked assignment `x->right = r`: undefined on an absent node. -/
def write_right (r : rbt K) : rbt K → Option (rbt K)
  | NULL => none
  | node k n c l _ => some (node k n c l r)

/-- The function `left_rotate` with every field access checked. -/
def left_rotate_checked (r : rbt K) : Option (rbt K) := do
  let temp := r
  let r ← read_right r
  let rl ← read_left r
  let temp ← write_right rl temp
  write_left temp r

/-- The function `right_rotate` with every field access checked. -/
def right_rotate_checked (r : rbt K) : Option (rbt K) := do
  let temp := r
  let r ← read_left r
  let rr ← read_right r
  let temp ← write_left rr temp
  write_right temp r

/-- The colour flip of `rbt_fix` with every field access checked. -/
def colour_flip_checked (r : rbt K) : Option (rbt K) := do
  let r ← write_colour RED r
  let l ← read_left r
  let l ← write_colour BLACK l
  let r ← write_left l r
  let x ← read_right r
  let x ← write_colour BLACK x
  write_right x r

/-- A test `IS_RED(r->a) && IS_RED(r->a->b)` of `rbt_fix` with checked field reads:
`r->a->b` is only read when `IS_RED(r->a)` holds. -/
def test_checked (a b : rbt K → Option (rbt K)) (r : rbt K) : Option Bool := do
  let x ← a r
  if IS_RED x then do
    let y ← b x
    pure (IS_RED y)
  else pure false

/-- The function `rbt_fix` with every field access checked: `none` stands for a read
or write through an absent node. -/
def rbt_fix_checked (r : rbt K) : Option (rbt K) :=
  if !nonNULL r then some NULL
  else do
    let t1 ← test_checked read_left read_left r
    if t1 then do
      let x ← read_right r
      if IS_RED x then colour_flip_checked r
      else do
        let r ← right_rotate_checked r
        let r ← write_colour BLACK r
        let x ← read_right r
        let x ← write_colour RED x
        write_right x r
    else do
      let t2 ← test_checked read_left read_right r
      if t2 then do
        let x ← read_right r
        if IS_RED x then colour_flip_checked r
        else do
          let l ← read_left r
          let l ← left_rotate_checked l
          let r ← write_left l r
          let r ← right_rotate_checked r
          let r ← write_colour BLACK r
          let x ← read_right r
          let x ← write_colour RED x
          write_right x r
      else do
        let t3 ← test_checked read_right read_left r
        if t3 then do
          let x ← read_left r
          if IS_RED x then colour_flip_checked r
          else do
            let x ← read_right r
            let x ← right_rotate_checked x
            let r ← write_right x r
            let r ← left_rotate_checked r
            let r ← write_colour BLACK r
            let x ← read_left r
            let x ← write_colour RED x
            write_left x r
        else do
          let t4 ← test_checked read_right read_right r
          if t4 then do
            let x ← read_left r
            if IS_RED x then colour_flip_checked r
            else do
              let r ← left_rotate_checked r
              let r ← write_colour BLACK r
              let x ← read_left r
              let x ← write_colour RED x
              write_left x r
          else pure r

/-- The number of nodes on the left spine: from the root, following `left` until the
empty position. -/
def left_depth : rbt K → Nat
  | NULL => 0
  | node _ _ _ l _ => left_depth l + 1

/-- Specification of the removal of the successor: the tree without the node at the
end of its left spine, whose right child takes its place. -/
def remove_successor : rbt K → rbt K
  | NULL => NULL
  | node k c col l r =>
    if nonNULL l then node k c col (remove_successor l) r else r

/-- The branch one call of `rbt_delete` takes. -/
inductive delete_case where
  | absent
  | go_left
  | go_right
  | decrement
  | two_children
  | one_child
  | leaf
  deriving DecidableEq

/-- The tree without its counts and colours: shape and keys only. -/
def shape : rbt K → rbt K
  | NULL => NULL
  | node k _ _ l r => node k 0 BLACK (shape l) (shape r)

/-- The tree without its counts: shape, keys and colours only. -/
def skeleton : rbt K → rbt K
  | NULL => NULL
  | node k _ col l r => node k 0 col (skeleton l) (skeleton r)

/-- No double-red pattern starts at this child: if it is red, its children are not. -/
def quiet (t : rbt K) : Prop :=
  IS_RED t = true → IS_RED (left t) = false ∧ IS_RED (right t) = false

variable [LinearOrder K]

/-- The strict binary-search-tree property: at every node, every key of the left
subtree is smaller than the node's key and every key of the right subtree is
greater. -/
def BST : rbt K → Prop
  | NULL => True
  | node k _ _ l r => (∀ x ∈ keys l, x < k) ∧ (∀ x ∈ keys r, k < x) ∧ BST l ∧ BST r

/-- One call of the public interface that changes the tree. -/
inductive Op (K : Type) where
  | insert (key : K)
  | delete (key : K)

/-- The effect of one call on the tree handle (the caller rebinds the result). -/
def apply_op (t : rbt K) : Op K → rbt K
  | Op.insert key => rbt_insert t key
  | Op.delete key => rbt_delete t key

/-- The tree reached from `rbt_new` by a sequence of calls. -/
def run (ops : List (Op K)) : rbt K :=
  ops.foldl apply_op rbt_new

/-- The tree obtained from `rbt_new` by inserting the keys one by one. -/
def insert_all (ks : List K) : rbt K :=
  ks.foldl rbt_insert rbt_new

/-- Reference multiset, one step: insert adds one occurrence, delete removes one
occurrence if there is one and does nothing otherwise. -/
def ref_step (m : Multiset K) : Op K → Multiset K
  | Op.insert key => key ::ₘ m
  | Op.delete key => m.erase key

/-- Reference multiset obtained by replaying a sequence of calls from the empty
multiset. -/
def ref_run (ops : List (Op K)) : Multiset K :=
  ops.foldl ref_step 0

/-- While the calls are replayed, no key ever has more than `INT_MAX` occurrences in
the reference multiset: after every number `i` of calls, every multiplicity fits a
C `int`. -/
def ref_within_int (ops : List (Op K)) : Prop :=
  ∀ (i : Nat) (k : K), ((ref_run (ops.take i)).count k : Int) ≤ INT_MAX

/-- The count of the first entry for a key in an in-order `(key, count)` sequence,
`0` when there is none. -/
def entries_count (key : K) : List (K × Int) → Int
  | [] => 0
  | (k, c) :: es => if k = key then c else entries_count key es

/-- The list-level effect of a delete on the in-order `(key, count)` sequence:
the first entry for the key has its count decremented, or is dropped when the
count is not greater than one. -/
def dec_entries (key : K) : List (K × Int) → List (K × Int)
  | [] => []
  | (k, c) :: es =>
    if k = key then (if c > 1 then (k, c - 1) :: es else es)
    else (k, c) :: dec_entries key es

/-- Specification of a partial delete: the tree with the count of the node
reached by the search descent for `key` made smaller by one, and nothing else
changed. -/
def decrement_count : rbt K → K → rbt K
  | NULL, _ => NULL
  | node k c col l r, key =>
    if key < k then node k c col (decrement_count l key) r
    else if k < key then node k c col l (decrement_count r key)
    else node k (c - 1) col l r

/-- A C string as the list of its character codes (its bytes, for an ASCII string);
lists are ordered lexicographically, as `strcmp` orders strings. -/
def c_string (s : String) : List Nat :=
  s.toList.map Char.toNat

/-- Specification of a duplicate insert: the tree with the count of the node reached
by the search descent for `key` made greater by one, and nothing else changed. -/
def increment_count : rbt K → K → rbt K
  | NULL, _ => NULL
  | node k c col l r, key =>
    if key < k then node k c col (increment_count l key) r
    else if k < key then node k c col l (increment_count r key)
    else node k (c + 1) col l r

/-- The arguments of the `rbt_fix` calls made by `rbt_insert_helper`, in the order in
which they are made (deepest node first): the control flow of `rbt_insert_helper`,
recording the node handed to `rbt_fix` at each level. -/
def rbt_fix_calls : rbt K → K → List (rbt K)
  | NULL, key => [node key 1 RED NULL NULL]
  | node k c col l r, key =>
    if strcmp key k < 0 then
      rbt_fix_calls l key ++ [node k c col (rbt_insert_helper l key) r]
    else if strcmp key k > 0 then
      rbt_fix_calls r key ++ [node k c col l (rbt_insert_helper r key)]
    else
      [node k (wrap_int (c + 1)) col l r]

/-- The branches taken by the successive calls of `rbt_delete`, outermost call
first: the control flow of `rbt_delete`, recording the branch instead of building
the tree. -/
def rbt_delete_cases : rbt K → K → List delete_case
  | NULL, _ => [delete_case.absent]
  | node k c _ l r, key =>
    if strcmp key k < 0 then
      delete_case.go_left :: rbt_delete_cases l key
    else if strcmp key k > 0 then
      delete_case.go_right :: rbt_delete_cases r key
    else if c > 1 then
      [delete_case.decrement]
    else if nonNULL l && nonNULL r then
      delete_case.two_children :: rbt_delete_cases (set_successor k c r) key
    else if nonNULL l || nonNULL r then
      [delete_case.one_child]
    else
      [delete_case.leaf]
termination_by t _ => size t
decreasing_by
  all_goals simp_wf
  all_goals
    have hs : ∀ t : rbt K, size (set_successor k c t) = size t := by
      intro t
      induction t with
      | NULL => rfl
      | node k' c' col' l' r' ihl _ =>
        unfold set_successor
        split <;> simp [size, ihl]
    simp only [size, hs]
    omega

/-- The function `rbt_insert_helper` with every field access checked. -/
def rbt_insert_helper_checked : rbt K → K → Option (rbt K)
  | NULL, key => rbt_fix_checked (node key 1 RED NULL NULL)
  | node k c col l r, key =>
    if strcmp key k < 0 then do
      let l ← rbt_insert_helper_checked l key
      rbt_fix_checked (node k c col l r)
    else if strcmp key k > 0 then do
      let r ← rbt_insert_helper_checked r key
      rbt_fix_checked (node k c col l r)
    else
      rbt_fix_checked (node k (wrap_int (c + 1)) col l r)

/-- The function `rbt_insert` with every field access checked; the root recolouring
`r->colour = BLACK` is undefined when the helper returns the empty tree. -/
def rbt_insert_checked (r : rbt K) (key : K) : Option (rbt K) := do
  let r ← rbt_insert_helper_checked r key
  write_colour BLACK r

/-- Calling `rbt_insert` with the same key `n` times. -/
def insert_n (key : K) : Nat → rbt K → rbt K
  | 0, t => t
  | n + 1, t => insert_n key n (rbt_insert t key)

/-- Calling `rbt_delete` with the same key `n` times. -/
def delete_n (key : K) : Nat → rbt K → rbt K
  | 0, t => t
  | n + 1, t => delete_n key n (rbt_delete t key)

instance decidable_counts_pos : (t : rbt K) → Decidable (counts_pos t)
  | NULL => isTrue trivial
  | node _ c _ l r =>
    have := decidable_counts_pos l
    have := decidable_counts_pos r
    decidable_of_iff (1 ≤ c ∧ counts_pos l ∧ counts_pos r) (by rw [counts_pos])

instance decidable_no_red_red : (t : rbt K) → Decidable (no_red_red t)
  | NULL => isTrue trivial
  | node _ _ c l r =>
    have := decidable_no_red_red l
    have := decidable_no_red_red r
    decidable_of_iff
      ((c = RED → IS_RED l = false ∧ IS_RED r = false) ∧ no_red_red l ∧ no_red_red r)
      (by rw [no_red_red])

instance decidable_BST : (t : rbt K) → Decidable (BST t)
  | NULL => isTrue trivial
  | node k _ _ l r =>
    have := decidable_BST l
    have := decidable_BST r
    decidable_of_iff
      ((∀ x ∈ keys l, x < k) ∧ (∀ x ∈ keys r, k < x) ∧ BST l ∧ BST r)
      (by rw [BST])

end Spec

section Lemmas

variable {K : Type}

/-! ### Field reads and writes on a present node -/

@[simp] theorem IS_RED_NULL : IS_RED (NULL : rbt K) = false := rfl

@[simp] theorem IS_RED_node (k : K) (c : Int) (col : rbt_colour) (l r : rbt K) :
    IS_RED (node k c col l r) = decide (col = RED) := rfl

@[simp] theorem nonNULL_NULL : nonNULL (NULL : rbt K) = false := rfl

@[simp] theorem nonNULL_node (k : K) (c : Int) (col : rbt_colour) (l r : rbt K) :
    nonNULL (node k c col l r) = true := rfl

@[simp] theorem left_NULL : left (NULL : rbt K) = NULL := rfl

@[simp] theorem left_node (k : K) (c : Int) (col : rbt_colour) (l r : rbt K) :
    left (node k c col l r) = l := rfl

@[simp] theorem right_NULL : right (NULL : rbt K) = NULL := rfl

@[simp] theorem right_node (k : K) (c : Int) (col : rbt_colour) (l r : rbt K) :
    right (node k c col l r) = r := rfl

@[simp] theorem set_colour_NULL (x : rbt_colour) : set_colour x (NULL : rbt K) = NULL := rfl

@[simp] theorem set_colour_node (x : rbt_colour) (k : K) (c : Int) (col : rbt_colour)
    (l r : rbt K) : set_colour x (node k c col l r) = node k c x l r := rfl

@[simp] theorem set_left_node (x : rbt K) (k : K) (c : Int) (col : rbt_colour)
    (l r : rbt K) : set_left x (node k c col l r) = node k c col x r := rfl

@[simp] theorem set_right_node (x : rbt K) (k : K) (c : Int) (col : rbt_colour)
    (l r : rbt K) : set_right x (node k c col l r) = node k c col l x := rfl

/-! ### Reading the colour tests -/

theorem IS_RED_eq_true {t : rbt K} (h : IS_RED t = true) :
    ∃ k c l r, t = node k c RED l r := by
  cases t with
  | NULL => simp at h
  | node k c col l r =>
    cases col with
    | RED => exact ⟨k, c, l, r, rfl⟩
    | BLACK => simp at h

theorem IS_RED_set_colour_BLACK (t : rbt K) : IS_RED (set_colour BLACK t) = false := by
  cases t <;> simp

/-! ### The five cases of `rbt_fix` -/

theorem rbt_fix_LL (k : K) (c : Int) (col : rbt_colour) (lk : K) (lc : Int) (llk : K)
    (llc : Int) (a b lr r : rbt K) :
    rbt_fix (node k c col (node lk lc RED (node llk llc RED a b) lr) r) =
      if IS_RED r then
        node k c RED (node lk lc BLACK (node llk llc RED a b) lr) (set_colour BLACK r)
      else node lk lc BLACK (node llk llc RED a b) (node k c RED lr r) := by
  simp [rbt_fix, colour_flip, right_rotate]

theorem rbt_fix_LR (k : K) (c : Int) (col : rbt_colour) (lk : K) (lc : Int) (lrk : K)
    (lrc : Int) (a b ll r : rbt K) (h : IS_RED ll = false) :
    rbt_fix (node k c col (node lk lc RED ll (node lrk lrc RED a b)) r) =
      if IS_RED r then
        node k c RED (node lk lc BLACK ll (node lrk lrc RED a b)) (set_colour BLACK r)
      else node lrk lrc BLACK (node lk lc RED ll a) (node k c RED b r) := by
  simp [rbt_fix, colour_flip, right_rotate, left_rotate, h]

theorem rbt_fix_RL (k : K) (c : Int) (col : rbt_colour) (rk : K) (rc : Int) (rlk : K)
    (rlc : Int) (a b rr l : rbt K) (hl : quiet l) :
    rbt_fix (node k c col l (node rk rc RED (node rlk rlc RED a b) rr)) =
      if IS_RED l then
        node k c RED (set_colour BLACK l) (node rk rc BLACK (node rlk rlc RED a b) rr)
      else node rlk rlc BLACK (node k c RED l a) (node rk rc RED b rr) := by
  by_cases h : IS_RED l = true
  · obtain ⟨h1, h2⟩ := hl h
    obtain ⟨lk, lc, ll, lr, rfl⟩ := IS_RED_eq_true h
    simp at h1 h2
    simp [rbt_fix, colour_flip, h1, h2]
  · simp [rbt_fix, right_rotate, left_rotate, h]

theorem rbt_fix_RR (k : K) (c : Int) (col : rbt_colour) (rk : K) (rc : Int) (rrk : K)
    (rrc : Int) (a b rl l : rbt K) (hl : quiet l) (h : IS_RED rl = false) :
    rbt_fix (node k c col l (node rk rc RED rl (node rrk rrc RED a b))) =
      if IS_RED l then
        node k c RED (set_colour BLACK l) (node rk rc BLACK rl (node rrk rrc RED a b))
      else node rk rc BLACK (node k c RED l rl) (node rrk rrc RED a b) := by
  by_cases h' : IS_RED l = true
  · obtain ⟨h1, h2⟩ := hl h'
    obtain ⟨lk, lc, ll, lr, rfl⟩ := IS_RED_eq_true h'
    simp at h1 h2
    simp [rbt_fix, colour_flip, h, h1, h2]
  · simp [rbt_fix, left_rotate, h, h']

theorem rbt_fix_quiet (k : K) (c : Int) (col : rbt_colour) (l r : rbt K)
    (hl : quiet l) (hr : quiet r) :
    rbt_fix (node k c col l r) = node k c col l r := by
  have h1 : ¬ (IS_RED l = true ∧ IS_RED (left l) = true) := fun h => by
    have := (hl h.1).1
    simp [h.2] at this
  have h2 : ¬ (IS_RED l = true ∧ IS_RED (right l) = true) := fun h => by
    have := (hl h.1).2
    simp [h.2] at this
  have h3 : ¬ (IS_RED r = true ∧ IS_RED (left r) = true) := fun h => by
    have := (hr h.1).1
    simp [h.2] at this
  have h4 : ¬ (IS_RED r = true ∧ IS_RED (right r) = true) := fun h => by
    have := (hr h.1).2
    simp [h.2] at this
  simp only [rbt_fix, nonNULL_node, left_node, right_node, Bool.and_eq_true]
  simp [h1, h2, h3, h4]

/-! ### `rbt_fix` keeps the in-order sequence -/

theorem entries_set_colour (c : rbt_colour) (t : rbt K) :
    entries (set_colour c t) = entries t := by
  cases t <;> rfl

theorem entries_rbt_fix (t : rbt K) : entries (rbt_fix t) = entries t := by
  rcases t with _ | ⟨k, c, col, l, r⟩
  · rfl
  by_cases h1 : IS_RED l = true ∧ IS_RED (left l) = true
  · obtain ⟨lk, lc, ll, lr, rfl⟩ := IS_RED_eq_true h1.1
    obtain ⟨llk, llc, a, b, rfl⟩ := IS_RED_eq_true (t := ll) h1.2
    rw [rbt_fix_LL]
    split_ifs <;> simp [entries, entries_set_colour]
  by_cases h2 : IS_RED l = true ∧ IS_RED (right l) = true
  · obtain ⟨lk, lc, ll, lr, rfl⟩ := IS_RED_eq_true h2.1
    obtain ⟨lrk, lrc, a, b, rfl⟩ := IS_RED_eq_true (t := lr) h2.2
    have hll : IS_RED ll = false := by
      cases h : IS_RED ll
      · rfl
      · exact absurd ⟨h2.1, h⟩ h1
    rw [rbt_fix_LR _ _ _ _ _ _ _ _ _ _ _ hll]
    split_ifs <;> simp [entries, entries_set_colour]
  have hl : quiet l := fun h => by
    constructor
    · cases h' : IS_RED (left l)
      · rfl
      · exact absurd ⟨h, h'⟩ h1
    · cases h' : IS_RED (right l)
      · rfl
      · exact absurd ⟨h, h'⟩ h2
  by_cases h3 : IS_RED r = true ∧ IS_RED (left r) = true
  · obtain ⟨rk, rc, rl, rr, rfl⟩ := IS_RED_eq_true h3.1
    obtain ⟨rlk, rlc, a, b, rfl⟩ := IS_RED_eq_true (t := rl) h3.2
    rw [rbt_fix_RL _ _ _ _ _ _ _ _ _ _ _ hl]
    split_ifs <;> simp [entries, entries_set_colour]
  by_cases h4 : IS_RED r = true ∧ IS_RED (right r) = true
  · obtain ⟨rk, rc, rl, rr, rfl⟩ := IS_RED_eq_true h4.1
    obtain ⟨rrk, rrc, a, b, rfl⟩ := IS_RED_eq_true (t := rr) h4.2
    have hrl : IS_RED rl = false := by
      cases h : IS_RED rl
      · rfl
      · exact absurd ⟨h4.1, h⟩ h3
    rw [rbt_fix_RR _ _ _ _ _ _ _ _ _ _ _ hl hrl]
    split_ifs <;> simp [entries, entries_set_colour]
  have hr : quiet r := fun h => by
    constructor
    · cases h' : IS_RED (left r)
      · rfl
      · exact absurd ⟨h, h'⟩ h3
    · cases h' : IS_RED (right r)
      · rfl
      · exact absurd ⟨h, h'⟩ h4
  rw [rbt_fix_quiet _ _ _ _ _ hl hr]

/-! ### Keys, visits and invariants through the in-order sequence -/

theorem keys_eq_map_entries (t : rbt K) : keys t = (entries t).map Prod.fst := by
  induction t with
  | NULL => rfl
  | node k c col l r ihl ihr => simp [keys, entries, ihl, ihr]

theorem rbt_inorder_eq_bind (t : rbt K) :
    rbt_inorder t = (entries t).flatMap (fun e => visit e.1 e.2) := by
  induction t with
  | NULL => rfl
  | node k c col l r ihl ihr => simp [rbt_inorder, entries, ihl, ihr]

theorem counts_pos_iff (t : rbt K) : counts_pos t ↔ ∀ e ∈ entries t, 1 ≤ e.2 := by
  induction t with
  | NULL => simp [counts_pos, entries]
  | node k c col l r ihl ihr =>
    simp only [counts_pos, entries, ihl, ihr, List.mem_append, List.mem_cons]
    constructor
    · rintro ⟨h1, h2, h3⟩ e (he | rfl | he)
      · exact h2 e he
      · exact h1
      · exact h3 e he
    · intro h
      exact ⟨h (k, c) (Or.inr (Or.inl rfl)), fun e he => h e (Or.inl he),
        fun e he => h e (Or.inr (Or.inr he))⟩

theorem keys_rbt_fix (t : rbt K) : keys (rbt_fix t) = keys t := by
  rw [keys_eq_map_entries, keys_eq_map_entries, entries_rbt_fix]

theorem keys_set_colour (c : rbt_colour) (t : rbt K) : keys (set_colour c t) = keys t := by
  cases t <;> rfl

theorem rbt_inorder_rbt_fix (t : rbt K) : rbt_inorder (rbt_fix t) = rbt_inorder t := by
  rw [rbt_inorder_eq_bind, rbt_inorder_eq_bind, entries_rbt_fix]

theorem rbt_inorder_set_colour (c : rbt_colour) (t : rbt K) :
    rbt_inorder (set_colour c t) = rbt_inorder t := by
  cases t <;> rfl

theorem counts_pos_rbt_fix (t : rbt K) : counts_pos (rbt_fix t) ↔ counts_pos t := by
  rw [counts_pos_iff, counts_pos_iff, entries_rbt_fix]

theorem counts_pos_set_colour (c : rbt_colour) (t : rbt K) :
    counts_pos (set_colour c t) ↔ counts_pos t := by
  cases t <;> simp [counts_pos]

theorem mem_keys_of_mem_rbt_inorder {t : rbt K} {x : K} (h : x ∈ rbt_inorder t) :
    x ∈ keys t := by
  induction t with
  | NULL => simp [rbt_inorder] at h
  | node k c col l r ihl ihr =>
    simp only [rbt_inorder, visit, List.mem_append, List.mem_replicate] at h
    simp only [keys, List.mem_append, List.mem_cons]
    rcases h with (h | h) | h
    · exact Or.inl (ihl h)
    · exact Or.inr (Or.inl h.2)
    · exact Or.inr (Or.inr (ihr h))

theorem visit_succ (k : K) (c : Int) (h : 0 ≤ c) : visit k (c + 1) = k :: visit k c := by
  unfold visit
  rw [Int.toNat_add h (by decide)]
  rfl

theorem mem_keys_of_mem_entries {t : rbt K} {e : K × Int} (h : e ∈ entries t) :
    e.1 ∈ keys t := by
  rw [keys_eq_map_entries]
  exact List.mem_map_of_mem _ h

theorem entries_successor (k' : K) (c' : Int) (t : rbt K) (k0 : K) (c0 : Int)
    (h : nonNULL t = true) :
    ∃ rest, entries t = successor k0 c0 t :: rest ∧
      entries (set_successor k' c' t) = (k', c') :: rest := by
  induction t generalizing k0 c0 with
  | NULL => simp at h
  | node k c col l r ihl _ =>
    cases hl : nonNULL l with
    | false =>
      cases l with
      | NULL => exact ⟨entries r, by simp [entries, successor, set_successor]⟩
      | node _ _ _ _ _ => simp at hl
    | true =>
      obtain ⟨rest, h1, h2⟩ := ihl k c hl
      refine ⟨rest ++ (k, c) :: entries r, ?_, ?_⟩
      · simp [entries, successor, h1]
      · simp [entries, set_successor, hl, h2]

theorem not_mem_visit {k key : K} (c : Int) (h : k ≠ key) : key ∉ visit k c := by
  unfold visit
  intro hm
  exact h (List.eq_of_mem_replicate hm).symm

/-! ### The red-black invariant -/

theorem RB_quiet {t : rbt K} {n : Nat} (h : RB t n) : quiet t := by
  intro hred
  cases h with
  | nil => simp at hred
  | red h1 h2 _ _ => exact ⟨by simpa using h1, by simpa using h2⟩
  | black _ _ => simp at hred

theorem RB_set_colour_BLACK {t : rbt K} {n : Nat} (h : RB t n) (hred : IS_RED t = true) :
    RB (set_colour BLACK t) (n + 1) := by
  cases h with
  | nil => simp at hred
  | red _ _ hl hr => exact RB.black hl hr
  | black _ _ => simp at hred

theorem no_red_red_of_RB {t : rbt K} {n : Nat} (h : RB t n) : no_red_red t := by
  induction h with
  | nil => trivial
  | red h1 h2 _ _ ihl ihr => exact ⟨fun _ => ⟨h1, h2⟩, ihl, ihr⟩
  | black _ _ ihl ihr => exact ⟨fun hc => (by cases hc), ihl, ihr⟩

theorem height_le_of_RB {t : rbt K} {n : Nat} (h : RB t n) :
    height t ≤ 2 * n + (if IS_RED t = true then 1 else 0) := by
  induction h with
  | nil => simp [height]
  | red h1 h2 _ _ ihl ihr =>
    simp only [h1, h2, Bool.false_eq_true, if_false, add_zero] at ihl ihr
    simp only [height, IS_RED_node, decide_True, if_true]
    omega
  | black _ _ ihl ihr =>
    simp only [height, IS_RED_node]
    split_ifs at ihl ihr ⊢ <;> simp_all <;> omega

theorem two_pow_le_size_of_RB {t : rbt K} {n : Nat} (h : RB t n) : 2 ^ n ≤ size t + 1 := by
  induction h with
  | nil => simp [size]
  | red _ _ _ _ ihl ihr =>
    simp only [size]
    omega
  | black _ _ ihl ihr =>
    simp only [size, pow_succ]
    omega

theorem two_pow_height_le (t : rbt K) (n : Nat) (h : RB t n) (hb : IS_RED t = false) :
    2 ^ height t ≤ (size t + 1) ^ 2 := by
  have h1 := height_le_of_RB h
  simp only [hb, Bool.false_eq_true, if_false, add_zero] at h1
  calc 2 ^ height t ≤ 2 ^ (2 * n) := Nat.pow_le_pow_right (by decide) h1
    _ = (2 ^ n) ^ 2 := by rw [Nat.mul_comm, pow_mul]
    _ ≤ (size t + 1) ^ 2 := Nat.pow_le_pow_left (two_pow_le_size_of_RB h) 2

theorem eq_false_of_ne_true_red {t : rbt K} (h : ¬ IS_RED t = true) : IS_RED t = false := by
  cases h' : IS_RED t
  · rfl
  · exact absurd h' h

theorem RB_rbt_fix_black_left (k : K) (c : Int) (l r : rbt K) (n : Nat) (hr : RB r n)
    (hl : RB l n ∨ ∃ lk lc a b, l = node lk lc RED a b ∧ RB a n ∧ RB b n ∧
      (IS_RED a = false ∨ IS_RED b = false)) :
    RB (rbt_fix (node k c BLACK l r)) (n + 1) := by
  rcases hl with hl | ⟨lk, lc, a, b, rfl, ha, hb, hab⟩
  · rw [rbt_fix_quiet _ _ _ _ _ (RB_quiet hl) (RB_quiet hr)]
    exact RB.black hl hr
  by_cases hra : IS_RED a = true
  · have hbb : IS_RED b = false := by
      rcases hab with h | h
      · rw [h] at hra
        cases hra
      · exact h
    obtain ⟨ak, ac, a1, a2, rfl⟩ := IS_RED_eq_true hra
    rw [rbt_fix_LL]
    split_ifs with hrr
    · exact RB.red rfl (IS_RED_set_colour_BLACK r) (RB.black ha hb)
        (RB_set_colour_BLACK hr hrr)
    · exact RB.black ha (RB.red hbb (eq_false_of_ne_true_red hrr) hb hr)
  have hra' := eq_false_of_ne_true_red hra
  by_cases hrb : IS_RED b = true
  · obtain ⟨bk, bc, b1, b2, rfl⟩ := IS_RED_eq_true hrb
    rw [rbt_fix_LR _ _ _ _ _ _ _ _ _ _ _ hra']
    cases hb with
    | red h1 h2 hb1 hb2 =>
      split_ifs with hrr
      · exact RB.red rfl (IS_RED_set_colour_BLACK r)
          (RB.black ha (RB.red h1 h2 hb1 hb2)) (RB_set_colour_BLACK hr hrr)
      · exact RB.black (RB.red hra' h1 ha hb1)
          (RB.red h2 (eq_false_of_ne_true_red hrr) hb2 hr)
  · have hl : RB (node lk lc RED a b) n :=
      RB.red hra' (eq_false_of_ne_true_red hrb) ha hb
    rw [rbt_fix_quiet _ _ _ _ _ (RB_quiet hl) (RB_quiet hr)]
    exact RB.black hl hr

theorem RB_rbt_fix_black_right (k : K) (c : Int) (l r : rbt K) (n : Nat) (hl : RB l n)
    (hr : RB r n ∨ ∃ rk rc a b, r = node rk rc RED a b ∧ RB a n ∧ RB b n ∧
      (IS_RED a = false ∨ IS_RED b = false)) :
    RB (rbt_fix (node k c BLACK l r)) (n + 1) := by
  rcases hr with hr | ⟨rk, rc, a, b, rfl, ha, hb, hab⟩
  · rw [rbt_fix_quiet _ _ _ _ _ (RB_quiet hl) (RB_quiet hr)]
    exact RB.black hl hr
  by_cases hra : IS_RED a = true
  · have hbb : IS_RED b = false := by
      rcases hab with h | h
      · rw [h] at hra
        cases hra
      · exact h
    obtain ⟨ak, ac, a1, a2, rfl⟩ := IS_RED_eq_true hra
    rw [rbt_fix_RL _ _ _ _ _ _ _ _ _ _ _ (RB_quiet hl)]
    cases ha with
    | red h1 h2 ha1 ha2 =>
      split_ifs with hrl
      · exact RB.red (IS_RED_set_colour_BLACK l) rfl (RB_set_colour_BLACK hl hrl)
          (RB.black (RB.red h1 h2 ha1 ha2) hb)
      · exact RB.black (RB.red (eq_false_of_ne_true_red hrl) h1 hl ha1)
          (RB.red h2 hbb ha2 hb)
  have hra' := eq_false_of_ne_true_red hra
  by_cases hrb : IS_RED b = true
  · obtain ⟨bk, bc, b1, b2, rfl⟩ := IS_RED_eq_true hrb
    rw [rbt_fix_RR _ _ _ _ _ _ _ _ _ _ _ (RB_quiet hl) hra']
    split_ifs with hrl
    · exact RB.red (IS_RED_set_colour_BLACK l) rfl (RB_set_colour_BLACK hl hrl)
        (RB.black ha hb)
    · exact RB.black (RB.red (eq_false_of_ne_true_red hrl) hra' hl ha) hb
  · have hr : RB (node rk rc RED a b) n :=
      RB.red hra' (eq_false_of_ne_true_red hrb) ha hb
    rw [rbt_fix_quiet _ _ _ _ _ (RB_quiet hl) (RB_quiet hr)]
    exact RB.black hl hr

theorem size_eq_length_keys (t : rbt K) : size t = (keys t).length := by
  induction t with
  | NULL => rfl
  | node k c col l r ihl ihr =>
    simp only [size, keys, List.length_append, List.length_cons, ihl, ihr]
    omega

/-! ### The three traversals make the same visits -/

theorem rbt_preorder_perm (t : rbt K) : (rbt_preorder t).Perm (rbt_inorder t) := by
  induction t with
  | NULL => exact List.Perm.refl _
  | node k c col l r ihl ihr =>
    simp only [rbt_preorder, rbt_inorder]
    exact (List.perm_append_comm.append_right _).trans
      ((ihl.append_right _).append ihr)

theorem rbt_postorder_perm (t : rbt K) : (rbt_postorder t).Perm (rbt_inorder t) := by
  induction t with
  | NULL => exact List.Perm.refl _
  | node k c col l r ihl ihr =>
    simp only [rbt_postorder, rbt_inorder, List.append_assoc]
    exact (ihl.append (List.perm_append_comm.trans (ihr.append_left _)))

theorem length_rbt_inorder (t : rbt K) (h : counts_pos t) :
    ((rbt_inorder t).length : Int) = sum_counts t := by
  induction t with
  | NULL => rfl
  | node k c col l r ihl ihr =>
    obtain ⟨hc, hl, hr⟩ := h
    simp only [rbt_inorder, visit, sum_counts, List.length_append, List.length_replicate,
      Nat.cast_add, ihl hl, ihr hr, Int.toNat_of_nonneg (by omega : 0 ≤ c)]

/-! ### `rbt_fix` and the rotations on a present node -/

theorem nonNULL_rbt_fix (t : rbt K) (h : nonNULL t = true) : nonNULL (rbt_fix t) = true := by
  have he := entries_rbt_fix t
  cases t with
  | NULL => simp at h
  | node k c col l r =>
    cases hf : rbt_fix (node k c col l r) with
    | NULL =>
      rw [hf] at he
      simp [entries] at he
    | node _ _ _ _ _ => rfl

theorem path_blacks_of_RB {t : rbt K} {n : Nat} (h : RB t n) : ∀ x ∈ path_blacks t, x = n := by
  induction h with
  | nil => simp [path_blacks]
  | red _ _ _ _ ihl ihr =>
    intro x hx
    simp only [path_blacks, List.mem_map, List.mem_append] at hx
    obtain ⟨y, hy | hy, rfl⟩ := hx
    · simpa using ihl y hy
    · simpa using ihr y hy
  | black _ _ ihl ihr =>
    intro x hx
    simp only [path_blacks, List.mem_map, List.mem_append] at hx
    obtain ⟨y, hy | hy, rfl⟩ := hx
    · simpa using ihl y hy
    · simpa using ihr y hy

theorem quiet_of_no_red_red {t : rbt K} (h : no_red_red t) : quiet t := by
  intro hred
  obtain ⟨k, c, l, r, rfl⟩ := IS_RED_eq_true hred
  exact h.1 rfl

/-! ### The checked model agrees with `rbt_fix` -/

@[simp] theorem read_left_node (k : K) (c : Int) (col : rbt_colour) (l r : rbt K) :
    read_left (node k c col l r) = some l := rfl

@[simp] theorem read_right_node (k : K) (c : Int) (col : rbt_colour) (l r : rbt K) :
    read_right (node k c col l r) = some r := rfl

@[simp] theorem write_colour_node (x : rbt_colour) (k : K) (c : Int) (col : rbt_colour)
    (l r : rbt K) : write_colour x (node k c col l r) = some (node k c x l r) := rfl

@[simp] theorem write_left_node (x : rbt K) (k : K) (c : Int) (col : rbt_colour)
    (l r : rbt K) : write_left x (node k c col l r) = some (node k c col x r) := rfl

@[simp] theorem write_right_node (x : rbt K) (k : K) (c : Int) (col : rbt_colour)
    (l r : rbt K) : write_right x (node k c col l r) = some (node k c col l x) := rfl

theorem test_checked_left (b : rbt K → Option (rbt K)) (b' : rbt K → rbt K)
    (hb : ∀ k c col l r, b (node k c col l r) = some (b' (node k c col l r)))
    (k : K) (c : Int) (col : rbt_colour) (l r : rbt K) :
    test_checked read_left b (node k c col l r) = some (IS_RED l && IS_RED (b' l)) := by
  unfold test_checked
  cases l with
  | NULL => simp
  | node lk lc lcol ll lr =>
    cases lcol <;> simp [hb]

theorem test_checked_right (b : rbt K → Option (rbt K)) (b' : rbt K → rbt K)
    (hb : ∀ k c col l r, b (node k c col l r) = some (b' (node k c col l r)))
    (k : K) (c : Int) (col : rbt_colour) (l r : rbt K) :
    test_checked read_right b (node k c col l r) = some (IS_RED r && IS_RED (b' r)) := by
  unfold test_checked
  cases r with
  | NULL => simp
  | node rk rc rcol rl rr =>
    cases rcol <;> simp [hb]

theorem rbt_fix_checked_eq (t : rbt K) : rbt_fix_checked t = some (rbt_fix t) := by
  rcases t with _ | ⟨k, c, col, l, r⟩
  · rfl
  have t1 := test_checked_left read_left left (fun _ _ _ _ _ => rfl) k c col l r
  have t2 := test_checked_left read_right right (fun _ _ _ _ _ => rfl) k c col l r
  have t3 := test_checked_right read_left left (fun _ _ _ _ _ => rfl) k c col l r
  have t4 := test_checked_right read_right right (fun _ _ _ _ _ => rfl) k c col l r
  unfold rbt_fix_checked
  simp only [nonNULL_node, Bool.not_true, Bool.false_eq_true, if_false, t1, t2, t3, t4,
    Option.bind_eq_bind, Option.some_bind, read_right_node, read_left_node]
  by_cases h1 : IS_RED l = true ∧ IS_RED (left l) = true
  · obtain ⟨lk, lc, ll, lr, rfl⟩ := IS_RED_eq_true h1.1
    obtain ⟨llk, llc, a, b, rfl⟩ := IS_RED_eq_true (t := ll) h1.2
    rw [rbt_fix_LL]
    by_cases hr : IS_RED r = true
    · obtain ⟨rk, rc, rl, rr, rfl⟩ := IS_RED_eq_true hr
      simp [colour_flip_checked]
    · simp [hr, right_rotate_checked]
  by_cases h2 : IS_RED l = true ∧ IS_RED (right l) = true
  · obtain ⟨lk, lc, ll, lr, rfl⟩ := IS_RED_eq_true h2.1
    obtain ⟨lrk, lrc, a, b, rfl⟩ := IS_RED_eq_true (t := lr) h2.2
    have hll : IS_RED ll = false := by
      cases h : IS_RED ll
      · rfl
      · exact absurd ⟨h2.1, h⟩ h1
    rw [rbt_fix_LR _ _ _ _ _ _ _ _ _ _ _ hll]
    by_cases hr : IS_RED r = true
    · obtain ⟨rk, rc, rl, rr, rfl⟩ := IS_RED_eq_true hr
      simp [colour_flip_checked, hll]
    · simp [hr, hll, right_rotate_checked, left_rotate_checked]
  have hl : quiet l := fun h => by
    constructor
    · cases h' : IS_RED (left l)
      · rfl
      · exact absurd ⟨h, h'⟩ h1
    · cases h' : IS_RED (right l)
      · rfl
      · exact absurd ⟨h, h'⟩ h2
  have e1 : (IS_RED l && IS_RED (left l)) = false := by
    cases h : IS_RED l
    · rfl
    · simp [(hl h).1]
  have e2 : (IS_RED l && IS_RED (right l)) = false := by
    cases h : IS_RED l
    · rfl
    · simp [(hl h).2]
  by_cases h3 : IS_RED r = true ∧ IS_RED (left r) = true
  · obtain ⟨rk, rc, rl, rr, rfl⟩ := IS_RED_eq_true h3.1
    obtain ⟨rlk, rlc, a, b, rfl⟩ := IS_RED_eq_true (t := rl) h3.2
    rw [rbt_fix_RL _ _ _ _ _ _ _ _ _ _ _ hl]
    by_cases hlr : IS_RED l = true
    · obtain ⟨lk, lc, ll, lr, rfl⟩ := IS_RED_eq_true hlr
      simp at e1 e2
      simp [colour_flip_checked, e1, e2]
    · simp [hlr, right_rotate_checked, left_rotate_checked]
  by_cases h4 : IS_RED r = true ∧ IS_RED (right r) = true
  · obtain ⟨rk, rc, rl, rr, rfl⟩ := IS_RED_eq_true h4.1
    obtain ⟨rrk, rrc, a, b, rfl⟩ := IS_RED_eq_true (t := rr) h4.2
    have hrl : IS_RED rl = false := by
      cases h : IS_RED rl
      · rfl
      · exact absurd ⟨h4.1, h⟩ h3
    rw [rbt_fix_RR _ _ _ _ _ _ _ _ _ _ _ hl hrl]
    by_cases hlr : IS_RED l = true
    · obtain ⟨lk, lc, ll, lr, rfl⟩ := IS_RED_eq_true hlr
      simp at e1 e2
      simp [colour_flip_checked, e1, e2, hrl]
    · simp [hlr, hrl, left_rotate_checked]
  have hr : quiet r := fun h => by
    constructor
    · cases h' : IS_RED (left r)
      · rfl
      · exact absurd ⟨h, h'⟩ h3
    · cases h' : IS_RED (right r)
      · rfl
      · exact absurd ⟨h, h'⟩ h4
  have e3 : (IS_RED r && IS_RED (left r)) = false := by
    cases h : IS_RED r
    · rfl
    · simp [(hr h).1]
  have e4 : (IS_RED r && IS_RED (right r)) = false := by
    cases h : IS_RED r
    · rfl
    · simp [(hr h).2]
  rw [rbt_fix_quiet _ _ _ _ _ hl hr]
  simp [e1, e2, e3, e4]

/-! ### Removing the successor -/

theorem height_set_successor (key : K) (count : Int) (t : rbt K) :
    height (set_successor key count t) = height t := by
  induction t with
  | NULL => rfl
  | node k c col l r ihl _ =>
    unfold set_successor
    split <;> simp [height, ihl]

theorem entries_ne_nil_of_nonNULL (t : rbt K) (h : nonNULL t = true) : entries t ≠ [] := by
  cases t with
  | NULL => simp at h
  | node k c col l r => simp [entries]

theorem entries_remove_successor (t : rbt K) :
    entries (remove_successor t) = (entries t).tail := by
  induction t with
  | NULL => rfl
  | node k c col l r ihl _ =>
    unfold remove_successor
    cases hl : nonNULL l with
    | false =>
      cases l with
      | NULL => simp [entries]
      | node _ _ _ _ _ => simp at hl
    | true =>
      simp only [if_true, entries, ihl]
      rw [List.tail_append_of_ne_nil (entries_ne_nil_of_nonNULL l hl)]

theorem size_remove_successor (t : rbt K) (h : nonNULL t = true) :
    size (remove_successor t) + 1 = size t := by
  induction t with
  | NULL => simp at h
  | node k c col l r ihl _ =>
    unfold remove_successor
    cases hl : nonNULL l with
    | false =>
      cases l with
      | NULL => simp [size]
      | node _ _ _ _ _ => simp at hl
    | true =>
      simp only [if_true, size]
      have := ihl hl
      omega

/-! ### At most one double-red pattern per `rbt_fix` call -/

theorem patterns_matching_of_quiet (k : K) (c : Int) (col : rbt_colour) (l r : rbt K)
    (hl : quiet l) (hr : quiet r) : patterns_matching (node k c col l r) = 0 := by
  unfold quiet at hl hr
  simp only [patterns_matching, pattern_LL, pattern_LR, pattern_RL, pattern_RR, left_node,
    right_node]
  cases h1 : IS_RED l <;> cases h2 : IS_RED r <;> simp_all

theorem patterns_matching_left (k : K) (c : Int) (col : rbt_colour) (lk : K) (lc : Int)
    (a b r : rbt K) (hab : IS_RED a = false ∨ IS_RED b = false) (hr : quiet r) :
    patterns_matching (node k c col (node lk lc RED a b) r) ≤ 1 := by
  unfold quiet at hr
  simp only [patterns_matching, pattern_LL, pattern_LR, pattern_RL, pattern_RR, left_node,
    right_node, IS_RED_node]
  cases h2 : IS_RED r <;> rcases hab with h | h <;> cases h3 : IS_RED a <;>
    cases h4 : IS_RED b <;> simp_all

theorem patterns_matching_right (k : K) (c : Int) (col : rbt_colour) (rk : K) (rc : Int)
    (a b l : rbt K) (hab : IS_RED a = false ∨ IS_RED b = false) (hl : quiet l) :
    patterns_matching (node k c col l (node rk rc RED a b)) ≤ 1 := by
  unfold quiet at hl
  simp only [patterns_matching, pattern_LL, pattern_LR, pattern_RL, pattern_RR, left_node,
    right_node, IS_RED_node]
  cases h2 : IS_RED l <;> rcases hab with h | h <;> cases h3 : IS_RED a <;>
    cases h4 : IS_RED b <;> simp_all

theorem rbt_fix_of_patterns_matching_le_one (x : rbt K) (h : patterns_matching x ≤ 1) :
    (pattern_LL x = true → rbt_fix x = fix_LL x) ∧
    (pattern_LR x = true → rbt_fix x = fix_LR x) ∧
    (pattern_RL x = true → rbt_fix x = fix_RL x) ∧
    (pattern_RR x = true → rbt_fix x = fix_RR x) ∧
    (patterns_matching x = 0 → rbt_fix x = x) := by
  cases x with
  | NULL => simp [pattern_LL, pattern_LR, pattern_RL, pattern_RR, rbt_fix]
  | node k c col l r =>
    simp only [patterns_matching, pattern_LL, pattern_LR, pattern_RL, pattern_RR, rbt_fix,
      fix_LL, fix_LR, fix_RL, fix_RR, nonNULL_node, left_node, right_node] at h ⊢
    cases h1 : (IS_RED l && IS_RED (left l)) <;>
      cases h2 : (IS_RED l && IS_RED (right l)) <;>
      cases h3 : (IS_RED r && IS_RED (left r)) <;>
      cases h4 : (IS_RED r && IS_RED (right r)) <;>
      simp [h1, h2, h3, h4] at h ⊢

theorem no_red_red_set_colour_BLACK {t : rbt K} (h : no_red_red t) :
    no_red_red (set_colour BLACK t) := by
  cases t with
  | NULL => trivial
  | node k c col l r => exact ⟨fun hc => (by cases hc), h.2.1, h.2.2⟩

theorem no_red_red_rbt_fix_left (k : K) (c : Int) (col : rbt_colour) (lk : K) (lc : Int)
    (a b r : rbt K) (ha : no_red_red a) (hb : no_red_red b) (hr : no_red_red r)
    (hab : IS_RED a = false ∨ IS_RED b = false)
    (hred : IS_RED a = true ∨ IS_RED b = true) :
    no_red_red (rbt_fix (node k c col (node lk lc RED a b) r)) ∧
      (IS_RED (rbt_fix (node k c col (node lk lc RED a b) r)) = true →
        IS_RED (left (rbt_fix (node k c col (node lk lc RED a b) r))) = false ∧
        IS_RED (right (rbt_fix (node k c col (node lk lc RED a b) r))) = false) := by
  by_cases hra : IS_RED a = true
  · have hbb : IS_RED b = false := by
      rcases hab with h | h
      · rw [h] at hra
        cases hra
      · exact h
    obtain ⟨ak, ac, a1, a2, rfl⟩ := IS_RED_eq_true hra
    rw [rbt_fix_LL]
    split_ifs with hrr
    · exact ⟨⟨fun _ => ⟨rfl, IS_RED_set_colour_BLACK r⟩, ⟨fun hc => (by cases hc), ha, hb⟩,
        no_red_red_set_colour_BLACK hr⟩, fun _ => ⟨rfl, IS_RED_set_colour_BLACK r⟩⟩
    · exact ⟨⟨fun hc => (by cases hc), ha,
        ⟨fun _ => ⟨hbb, eq_false_of_ne_true_red hrr⟩, hb, hr⟩⟩, fun h => by simp at h⟩
  have hra' := eq_false_of_ne_true_red hra
  have hrb : IS_RED b = true := by
    rcases hred with h | h
    · exact absurd h hra
    · exact h
  obtain ⟨bk, bc, b1, b2, rfl⟩ := IS_RED_eq_true hrb
  obtain ⟨hb0, hb1, hb2⟩ := hb
  obtain ⟨h1, h2⟩ := hb0 rfl
  rw [rbt_fix_LR _ _ _ _ _ _ _ _ _ _ _ hra']
  split_ifs with hrr
  · exact ⟨⟨fun _ => ⟨rfl, IS_RED_set_colour_BLACK r⟩,
      ⟨fun hc => (by cases hc), ha, ⟨fun _ => ⟨h1, h2⟩, hb1, hb2⟩⟩,
      no_red_red_set_colour_BLACK hr⟩, fun _ => ⟨rfl, IS_RED_set_colour_BLACK r⟩⟩
  · exact ⟨⟨fun hc => (by cases hc), ⟨fun _ => ⟨hra', h1⟩, ha, hb1⟩,
      ⟨fun _ => ⟨h2, eq_false_of_ne_true_red hrr⟩, hb2, hr⟩⟩, fun h => by simp at h⟩

theorem no_red_red_rbt_fix_right (k : K) (c : Int) (col : rbt_colour) (rk : K) (rc : Int)
    (a b l : rbt K) (ha : no_red_red a) (hb : no_red_red b) (hl : no_red_red l)
    (hab : IS_RED a = false ∨ IS_RED b = false)
    (hred : IS_RED a = true ∨ IS_RED b = true) :
    no_red_red (rbt_fix (node k c col l (node rk rc RED a b))) ∧
      (IS_RED (rbt_fix (node k c col l (node rk rc RED a b))) = true →
        IS_RED (left (rbt_fix (node k c col l (node rk rc RED a b)))) = false ∧
        IS_RED (right (rbt_fix (node k c col l (node rk rc RED a b)))) = false) := by
  have ql := quiet_of_no_red_red hl
  by_cases hra : IS_RED a = true
  · have hbb : IS_RED b = false := by
      rcases hab with h | h
      · rw [h] at hra
        cases hra
      · exact h
    obtain ⟨ak, ac, a1, a2, rfl⟩ := IS_RED_eq_true hra
    obtain ⟨ha0, ha1, ha2⟩ := ha
    obtain ⟨h1, h2⟩ := ha0 rfl
    rw [rbt_fix_RL _ _ _ _ _ _ _ _ _ _ _ ql]
    split_ifs with hrl
    · exact ⟨⟨fun _ => ⟨IS_RED_set_colour_BLACK l, rfl⟩, no_red_red_set_colour_BLACK hl,
        ⟨fun hc => (by cases hc), ⟨fun _ => ⟨h1, h2⟩, ha1, ha2⟩, hb⟩⟩,
        fun _ => ⟨IS_RED_set_colour_BLACK l, rfl⟩⟩
    · exact ⟨⟨fun hc => (by cases hc),
        ⟨fun _ => ⟨eq_false_of_ne_true_red hrl, h1⟩, hl, ha1⟩,
        ⟨fun _ => ⟨h2, hbb⟩, ha2, hb⟩⟩, fun h => by simp at h⟩
  have hra' := eq_false_of_ne_true_red hra
  have hrb : IS_RED b = true := by
    rcases hred with h | h
    · exact absurd h hra
    · exact h
  obtain ⟨bk, bc, b1, b2, rfl⟩ := IS_RED_eq_true hrb
  rw [rbt_fix_RR _ _ _ _ _ _ _ _ _ _ _ ql hra']
  split_ifs with hrl
  · exact ⟨⟨fun _ => ⟨IS_RED_set_colour_BLACK l, rfl⟩, no_red_red_set_colour_BLACK hl,
      ⟨fun hc => (by cases hc), ha, hb⟩⟩, fun _ => ⟨IS_RED_set_colour_BLACK l, rfl⟩⟩
  · exact ⟨⟨fun hc => (by cases hc),
      ⟨fun _ => ⟨eq_false_of_ne_true_red hrl, hra'⟩, hl, ha⟩, hb⟩, fun h => by simp at h⟩

section Order

variable [LinearOrder K]

theorem BST_iff_pairwise (t : rbt K) : BST t ↔ (keys t).Pairwise (· < ·) := by
  induction t with
  | NULL => simp [BST, keys]
  | node k c col l r ihl ihr =>
    simp only [BST, keys, List.pairwise_append, List.pairwise_cons, List.mem_cons, ihl, ihr]
    constructor
    · rintro ⟨h1, h2, h3, h4⟩
      refine ⟨h3, ⟨h2, h4⟩, ?_⟩
      rintro a ha b (rfl | hb)
      · exact h1 a ha
      · exact lt_trans (h1 a ha) (h2 b hb)
    · rintro ⟨h1, ⟨h2, h3⟩, h4⟩
      exact ⟨fun x hx => h4 x hx k (Or.inl rfl), h2, h1, h3⟩

theorem BST_rbt_fix (t : rbt K) : BST (rbt_fix t) ↔ BST t := by
  rw [BST_iff_pairwise, BST_iff_pairwise, keys_rbt_fix]

theorem BST_set_colour (c : rbt_colour) (t : rbt K) : BST (set_colour c t) ↔ BST t := by
  rw [BST_iff_pairwise, BST_iff_pairwise, keys_set_colour]

theorem strcmp_lt_zero (a b : K) : strcmp a b < 0 ↔ a < b := by
  unfold strcmp
  split_ifs <;> simp_all

theorem strcmp_gt_zero (a b : K) : strcmp a b > 0 ↔ b < a := by
  unfold strcmp
  split_ifs with h1 h2
  · simpa using le_of_lt h1
  · simpa using h2
  · simpa using h2

/-! ### Insertion -/

theorem mem_keys_rbt_insert_helper (t : rbt K) (key x : K) :
    x ∈ keys (rbt_insert_helper t key) ↔ x = key ∨ x ∈ keys t := by
  induction t with
  | NULL => simp [rbt_insert_helper, keys_rbt_fix, keys]
  | node k c col l r ihl ihr =>
    unfold rbt_insert_helper
    split_ifs with h1 h2
    · simp only [keys_rbt_fix, keys, List.mem_append, List.mem_cons, ihl]
      tauto
    · simp only [keys_rbt_fix, keys, List.mem_append, List.mem_cons, ihr]
      tauto
    · rw [strcmp_lt_zero] at h1
      rw [strcmp_gt_zero] at h2
      have hk : key = k := le_antisymm (not_lt.mp h2) (not_lt.mp h1)
      subst hk
      simp only [keys_rbt_fix, keys, List.mem_append, List.mem_cons]
      tauto

theorem BST_rbt_insert_helper (t : rbt K) (key : K) (h : BST t) :
    BST (rbt_insert_helper t key) := by
  induction t with
  | NULL => simp [rbt_insert_helper, BST_rbt_fix, BST, keys]
  | node k c col l r ihl ihr =>
    obtain ⟨hl, hr, bl, br⟩ := h
    unfold rbt_insert_helper
    split_ifs with h1 h2
    · rw [strcmp_lt_zero] at h1
      rw [BST_rbt_fix]
      refine ⟨fun x hx => ?_, hr, ihl bl, br⟩
      rcases (mem_keys_rbt_insert_helper l key x).mp hx with rfl | hx
      · exact h1
      · exact hl x hx
    · rw [strcmp_gt_zero] at h2
      rw [BST_rbt_fix]
      refine ⟨hl, fun x hx => ?_, bl, ihr br⟩
      rcases (mem_keys_rbt_insert_helper r key x).mp hx with rfl | hx
      · exact h2
      · exact hr x hx
    · rw [BST_rbt_fix]
      exact ⟨hl, hr, bl, br⟩

theorem BST_rbt_insert (t : rbt K) (key : K) (h : BST t) : BST (rbt_insert t key) := by
  unfold rbt_insert
  rw [BST_set_colour]
  exact BST_rbt_insert_helper t key h

theorem wrap_int_of_range (x : Int) (h1 : INT_MIN ≤ x) (h2 : x ≤ INT_MAX) :
    wrap_int x = x := by
  unfold INT_MIN at h1
  unfold INT_MAX at h2
  unfold wrap_int
  omega

theorem wrap_int_succ (c : Int) (h1 : 1 ≤ c) (h2 : c < INT_MAX) : wrap_int (c + 1) = c + 1 := by
  apply wrap_int_of_range
  · unfold INT_MIN
    omega
  · omega

theorem counts_pos_rbt_insert_helper (t : rbt K) (key : K) (h : counts_pos t)
    (hs : rbt_search t key < INT_MAX) : counts_pos (rbt_insert_helper t key) := by
  induction t with
  | NULL => simp [rbt_insert_helper, counts_pos_rbt_fix, counts_pos]
  | node k c col l r ihl ihr =>
    obtain ⟨hc, hl, hr⟩ := h
    unfold rbt_search at hs
    unfold rbt_insert_helper
    split_ifs with h1 h2
    · rw [if_pos h1] at hs
      rw [counts_pos_rbt_fix]
      exact ⟨hc, ihl hl hs, hr⟩
    · rw [if_neg h1, if_pos h2] at hs
      rw [counts_pos_rbt_fix]
      exact ⟨hc, hl, ihr hr hs⟩
    · rw [if_neg h1, if_neg h2] at hs
      rw [counts_pos_rbt_fix, wrap_int_succ c hc hs]
      exact ⟨by omega, hl, hr⟩

theorem counts_pos_rbt_insert (t : rbt K) (key : K) (h : counts_pos t)
    (hs : rbt_search t key < INT_MAX) : counts_pos (rbt_insert t key) := by
  unfold rbt_insert
  rw [counts_pos_set_colour]
  exact counts_pos_rbt_insert_helper t key h hs

theorem rbt_inorder_rbt_insert_helper (t : rbt K) (key : K) (h : counts_pos t)
    (hs : rbt_search t key < INT_MAX) :
    (rbt_inorder (rbt_insert_helper t key)).Perm (key :: rbt_inorder t) := by
  induction t with
  | NULL => simp [rbt_insert_helper, rbt_inorder_rbt_fix, rbt_inorder, visit]
  | node k c col l r ihl ihr =>
    obtain ⟨hc, hl, hr⟩ := h
    unfold rbt_search at hs
    unfold rbt_insert_helper
    split_ifs with h1 h2
    · rw [if_pos h1] at hs
      rw [rbt_inorder_rbt_fix]
      simp only [rbt_inorder, List.append_assoc]
      exact ((ihl hl hs).append_right _)
    · rw [if_neg h1, if_pos h2] at hs
      rw [rbt_inorder_rbt_fix]
      simp only [rbt_inorder, List.append_assoc]
      refine List.Perm.trans ?_ List.perm_middle
      refine List.Perm.append_left _ ?_
      refine List.Perm.trans ?_ List.perm_middle
      exact List.Perm.append_left _ (ihr hr hs)
    · rw [if_neg h1, if_neg h2] at hs
      rw [strcmp_lt_zero] at h1
      rw [strcmp_gt_zero] at h2
      have hk : key = k := le_antisymm (not_lt.mp h2) (not_lt.mp h1)
      subst hk
      rw [rbt_inorder_rbt_fix, wrap_int_succ c hc hs]
      simp only [rbt_inorder, List.append_assoc, visit_succ key c (by omega)]
      exact List.perm_middle

theorem rbt_inorder_rbt_insert (t : rbt K) (key : K) (h : counts_pos t)
    (hs : rbt_search t key < INT_MAX) :
    (rbt_inorder (rbt_insert t key)).Perm (key :: rbt_inorder t) := by
  unfold rbt_insert
  rw [rbt_inorder_set_colour]
  exact rbt_inorder_rbt_insert_helper t key h hs

/-! ### Deletion -/

theorem dec_entries_cons (key k : K) (c : Int) (es : List (K × Int)) :
    dec_entries key ((k, c) :: es) =
      if k = key then (if c > 1 then (k, c - 1) :: es else es)
      else (k, c) :: dec_entries key es := rfl

theorem dec_entries_of_forall_ne (key : K) (es : List (K × Int))
    (h : ∀ e ∈ es, e.1 ≠ key) : dec_entries key es = es := by
  induction es with
  | nil => rfl
  | cons e es ih =>
    obtain ⟨k, c⟩ := e
    have hk : k ≠ key := h (k, c) (List.mem_cons_self _ _)
    rw [dec_entries_cons, if_neg hk, ih (fun e he => h e (List.mem_cons_of_mem _ he))]

theorem dec_entries_append_right (key : K) (l₁ l₂ : List (K × Int))
    (h : ∀ e ∈ l₁, e.1 ≠ key) :
    dec_entries key (l₁ ++ l₂) = l₁ ++ dec_entries key l₂ := by
  induction l₁ with
  | nil => rfl
  | cons e es ih =>
    obtain ⟨k, c⟩ := e
    have hk : k ≠ key := h (k, c) (List.mem_cons_self _ _)
    rw [List.cons_append, dec_entries_cons, if_neg hk,
      ih (fun e he => h e (List.mem_cons_of_mem _ he)), List.cons_append]

theorem dec_entries_append_left (key : K) (l₁ l₂ : List (K × Int))
    (h : ∀ e ∈ l₂, e.1 ≠ key) :
    dec_entries key (l₁ ++ l₂) = dec_entries key l₁ ++ l₂ := by
  induction l₁ with
  | nil => simpa [dec_entries] using dec_entries_of_forall_ne key l₂ h
  | cons e es ih =>
    obtain ⟨k, c⟩ := e
    rw [List.cons_append, dec_entries_cons, dec_entries_cons, ih]
    split_ifs <;> simp

theorem entries_rbt_delete (t : rbt K) (key : K) (h : BST t) :
    entries (rbt_delete t key) = dec_entries key (entries t) := by
  induction t, key using rbt_delete.induct with
  | case1 key => simp [rbt_delete, entries, dec_entries]
  | case2 k c col l r key h1 ih =>
    obtain ⟨hl, hr, bl, br⟩ := h
    rw [rbt_delete, if_pos h1]
    rw [strcmp_lt_zero] at h1
    simp only [entries, ih bl]
    rw [dec_entries_append_left]
    intro e he
    rcases List.mem_cons.mp he with rfl | he
    · exact ne_of_gt h1
    · exact ne_of_gt (lt_trans h1 (hr _ (mem_keys_of_mem_entries he)))
  | case3 k c col l r key h1 h2 ih =>
    obtain ⟨hl, hr, bl, br⟩ := h
    rw [rbt_delete, if_neg h1, if_pos h2]
    rw [strcmp_gt_zero] at h2
    simp only [entries, ih br]
    rw [dec_entries_append_right _ _ _
      (fun e he => ne_of_lt (lt_trans (hl _ (mem_keys_of_mem_entries he)) h2))]
    simp only [dec_entries, if_neg (ne_of_lt h2)]
  | case4 k c col l r key h1 h2 h3 =>
    obtain ⟨hl, hr, bl, br⟩ := h
    rw [rbt_delete, if_neg h1, if_neg h2, if_pos h3]
    rw [strcmp_lt_zero] at h1
    rw [strcmp_gt_zero] at h2
    have hk : key = k := le_antisymm (not_lt.mp h2) (not_lt.mp h1)
    subst hk
    simp only [entries]
    rw [dec_entries_append_right _ _ _
      (fun e he => ne_of_lt (hl _ (mem_keys_of_mem_entries he)))]
    simp [dec_entries, h3]
  | case5 k c col l r key h1 h2 h3 h4 ih =>
    obtain ⟨hl, hr, bl, br⟩ := h
    rw [rbt_delete, if_neg h1, if_neg h2, if_neg h3, if_pos h4]
    rw [strcmp_lt_zero] at h1
    rw [strcmp_gt_zero] at h2
    have hk : key = k := le_antisymm (not_lt.mp h2) (not_lt.mp h1)
    subst hk
    have hr' : nonNULL r = true := by
      simp only [Bool.and_eq_true] at h4
      exact h4.2
    obtain ⟨rest, e1, e2⟩ := entries_successor key c r key c hr'
    have hrest : ∀ x ∈ rest.map Prod.fst, key < x := by
      intro x hx
      apply hr
      rw [keys_eq_map_entries, e1]
      exact List.mem_cons_of_mem _ hx
    have bs : BST (set_successor key c r) := by
      rw [BST_iff_pairwise, keys_eq_map_entries, e2]
      rw [BST_iff_pairwise, keys_eq_map_entries, e1] at br
      simp only [List.map_cons, List.pairwise_cons] at br ⊢
      exact ⟨hrest, br.2⟩
    simp only [entries, ih bs, e2]
    rw [dec_entries_append_right _ _ _
      (fun e he => ne_of_lt (hl _ (mem_keys_of_mem_entries he)))]
    simp [dec_entries, h3, e1]
  | case6 k c col l r key h1 h2 h3 h4 h5 h6 =>
    obtain ⟨hl, hr, bl, br⟩ := h
    rw [rbt_delete, if_neg h1, if_neg h2, if_neg h3, if_neg h4, if_pos h5, if_pos h6]
    rw [strcmp_lt_zero] at h1
    rw [strcmp_gt_zero] at h2
    have hk : key = k := le_antisymm (not_lt.mp h2) (not_lt.mp h1)
    subst hk
    have hr' : r = NULL := by
      cases r with
      | NULL => rfl
      | node _ _ _ _ _ => simp [h6] at h4
    subst hr'
    simp only [entries]
    rw [dec_entries_append_right _ _ _
      (fun e he => ne_of_lt (hl _ (mem_keys_of_mem_entries he)))]
    simp [dec_entries, h3]
  | case7 k c col l r key h1 h2 h3 h4 h5 h6 =>
    obtain ⟨hl, hr, bl, br⟩ := h
    rw [rbt_delete, if_neg h1, if_neg h2, if_neg h3, if_neg h4, if_pos h5, if_neg h6]
    rw [strcmp_lt_zero] at h1
    rw [strcmp_gt_zero] at h2
    have hk : key = k := le_antisymm (not_lt.mp h2) (not_lt.mp h1)
    subst hk
    have hl' : l = NULL := by
      cases l with
      | NULL => rfl
      | node _ _ _ _ _ => simp at h6
    subst hl'
    simp [entries, dec_entries, h3]
  | case8 k c col l r key h1 h2 h3 h4 h5 =>
    rw [rbt_delete, if_neg h1, if_neg h2, if_neg h3, if_neg h4, if_neg h5]
    rw [strcmp_lt_zero] at h1
    rw [strcmp_gt_zero] at h2
    have hk : key = k := le_antisymm (not_lt.mp h2) (not_lt.mp h1)
    subst hk
    have hl' : l = NULL := by
      cases l with
      | NULL => rfl
      | node _ _ _ _ _ => simp at h5
    have hr' : r = NULL := by
      cases r with
      | NULL => rfl
      | node _ _ _ _ _ => simp at h5
    subst hl' hr'
    simp [entries, dec_entries, h3]

theorem dec_entries_sublist (key : K) (es : List (K × Int)) :
    List.Sublist (dec_entries key es) es ∨
      ∃ l₁ l₂ c, es = l₁ ++ (key, c) :: l₂ ∧ dec_entries key es = l₁ ++ (key, c - 1) :: l₂ := by
  induction es with
  | nil => exact Or.inl (List.Sublist.refl _)
  | cons e es ih =>
    obtain ⟨k, c⟩ := e
    rw [dec_entries_cons]
    split_ifs with h1 h2
    · subst h1
      exact Or.inr ⟨[], es, c, rfl, rfl⟩
    · exact Or.inl (List.sublist_cons_self _ _)
    · rcases ih with ih | ⟨l₁, l₂, c', e1, e2⟩
      · exact Or.inl (ih.cons₂ _)
      · exact Or.inr ⟨(k, c) :: l₁, l₂, c', by rw [e1]; rfl, by rw [e2]; rfl⟩

theorem map_fst_dec_entries_sublist (key : K) (es : List (K × Int)) :
    List.Sublist ((dec_entries key es).map Prod.fst) (es.map Prod.fst) := by
  rcases dec_entries_sublist key es with h | ⟨l₁, l₂, c, e1, e2⟩
  · exact h.map _
  · rw [e2, e1]
    simp

theorem BST_rbt_delete (t : rbt K) (key : K) (h : BST t) : BST (rbt_delete t key) := by
  rw [BST_iff_pairwise, keys_eq_map_entries, entries_rbt_delete t key h]
  rw [BST_iff_pairwise, keys_eq_map_entries] at h
  exact h.sublist (map_fst_dec_entries_sublist key _)

theorem dec_entries_counts (key : K) (es : List (K × Int)) (h : ∀ e ∈ es, 1 ≤ e.2) :
    ∀ e ∈ dec_entries key es, 1 ≤ e.2 := by
  induction es with
  | nil => simp [dec_entries]
  | cons e es ih =>
    obtain ⟨k, c⟩ := e
    have hes : ∀ e ∈ es, 1 ≤ e.2 := fun e he => h e (List.mem_cons_of_mem _ he)
    rw [dec_entries_cons]
    split_ifs with h1 h2
    · intro e he
      rcases List.mem_cons.mp he with rfl | he
      · show 1 ≤ c - 1
        omega
      · exact hes e he
    · exact hes
    · intro e he
      rcases List.mem_cons.mp he with rfl | he
      · exact h _ (List.mem_cons_self _ _)
      · exact ih hes e he

theorem counts_pos_rbt_delete (t : rbt K) (key : K) (h : BST t) (hc : counts_pos t) :
    counts_pos (rbt_delete t key) := by
  rw [counts_pos_iff, entries_rbt_delete t key h]
  exact dec_entries_counts key _ ((counts_pos_iff t).mp hc)

theorem flatMap_dec_entries (key : K) (es : List (K × Int)) (h : ∀ e ∈ es, 1 ≤ e.2) :
    (dec_entries key es).flatMap (fun e => visit e.1 e.2) =
      (es.flatMap (fun e => visit e.1 e.2)).erase key := by
  induction es with
  | nil => simp [dec_entries]
  | cons e es ih =>
    obtain ⟨k, c⟩ := e
    have hes : ∀ e ∈ es, 1 ≤ e.2 := fun e he => h e (List.mem_cons_of_mem _ he)
    have hc : 1 ≤ c := h (k, c) (List.mem_cons_self _ _)
    rw [dec_entries_cons]
    split_ifs with h1 h2
    · subst h1
      have hv : visit k c = k :: visit k (c - 1) := by
        have := visit_succ k (c - 1) (by omega)
        rwa [Int.sub_add_cancel] at this
      simp [List.flatMap_cons, hv]
    · subst h1
      have hc1 : c = 1 := by omega
      subst hc1
      simp [List.flatMap_cons, visit]
    · simp only [List.flatMap_cons, ih hes]
      rw [List.erase_append_right _ (not_mem_visit c h1)]

theorem rbt_inorder_rbt_delete (t : rbt K) (key : K) (h : BST t) (hc : counts_pos t) :
    rbt_inorder (rbt_delete t key) = (rbt_inorder t).erase key := by
  rw [rbt_inorder_eq_bind, rbt_inorder_eq_bind, entries_rbt_delete t key h]
  exact flatMap_dec_entries key _ ((counts_pos_iff t).mp hc)

/-! ### Search, order of the visits, and sequences of calls -/

theorem rbt_search_eq_count (t : rbt K) (key : K) (h : BST t) (hc : counts_pos t) :
    rbt_search t key = ((rbt_inorder t).count key : Int) := by
  induction t with
  | NULL => simp [rbt_search, rbt_inorder]
  | node k c col l r ihl ihr =>
    obtain ⟨hl, hr, bl, br⟩ := h
    obtain ⟨hc0, hcl, hcr⟩ := hc
    have nl : ∀ x, ¬ x < k → List.count x (rbt_inorder l) = 0 := fun x hx =>
      List.count_eq_zero_of_not_mem (fun hm => hx (hl x (mem_keys_of_mem_rbt_inorder hm)))
    have nr : ∀ x, ¬ k < x → List.count x (rbt_inorder r) = 0 := fun x hx =>
      List.count_eq_zero_of_not_mem (fun hm => hx (hr x (mem_keys_of_mem_rbt_inorder hm)))
    have nv : ∀ x, k ≠ x → List.count x (visit k c) = 0 := fun x hx =>
      List.count_eq_zero_of_not_mem (not_mem_visit c hx)
    simp only [rbt_search, rbt_inorder, List.count_append]
    split_ifs with h1 h2
    · rw [strcmp_lt_zero] at h1
      rw [ihl bl hcl, nv key (ne_of_gt h1), nr key (not_lt.mpr (le_of_lt h1))]
      simp
    · rw [strcmp_gt_zero] at h2
      rw [ihr br hcr, nv key (ne_of_lt h2), nl key (not_lt.mpr (le_of_lt h2))]
      simp
    · rw [strcmp_lt_zero] at h1
      rw [strcmp_gt_zero] at h2
      have hk : key = k := le_antisymm (not_lt.mp h2) (not_lt.mp h1)
      subst hk
      rw [nl key (lt_irrefl _), nr key (lt_irrefl _)]
      simp only [visit, List.count_replicate_self, zero_add, add_zero]
      omega

theorem sorted_rbt_inorder (t : rbt K) (h : BST t) : (rbt_inorder t).Pairwise (· ≤ ·) := by
  induction t with
  | NULL => simp [rbt_inorder]
  | node k c col l r ihl ihr =>
    obtain ⟨hl, hr, bl, br⟩ := h
    simp only [rbt_inorder, List.pairwise_append, List.mem_append]
    refine ⟨⟨ihl bl, ?_, ?_⟩, ihr br, ?_⟩
    · unfold visit
      exact List.pairwise_replicate.mpr (Or.inr (le_refl _))
    · intro a ha b hb
      rw [List.eq_of_mem_replicate hb]
      exact le_of_lt (hl a (mem_keys_of_mem_rbt_inorder ha))
    · rintro a (ha | ha) b hb
      · exact le_of_lt (lt_trans (hl a (mem_keys_of_mem_rbt_inorder ha))
          (hr b (mem_keys_of_mem_rbt_inorder hb)))
      · rw [List.eq_of_mem_replicate ha]
        exact le_of_lt (hr b (mem_keys_of_mem_rbt_inorder hb))

theorem run_append_singleton (ops : List (Op K)) (op : Op K) :
    run (ops ++ [op]) = apply_op (run ops) op := by
  simp [run, List.foldl_append]

theorem ref_run_append_singleton (ops : List (Op K)) (op : Op K) :
    ref_run (ops ++ [op]) = ref_step (ref_run ops) op := by
  simp [ref_run, List.foldl_append]

theorem run_BST (ops : List (Op K)) : BST (run ops) := by
  induction ops using List.reverseRecOn with
  | nil => exact trivial
  | append_singleton ops op ih =>
    rw [run_append_singleton]
    cases op with
    | insert key => exact BST_rbt_insert _ key ih
    | delete key => exact BST_rbt_delete _ key ih

theorem insert_all_eq_run (ks : List K) : insert_all ks = run (ks.map Op.insert) := by
  unfold insert_all run
  rw [List.foldl_map]
  rfl

theorem ref_within_int_of_append (ops : List (Op K)) (op : Op K)
    (h : ref_within_int (ops ++ [op])) : ref_within_int ops := by
  intro i k
  by_cases hi : i ≤ ops.length
  · have := h i k
    rwa [List.take_append_of_le_length hi] at this
  · have := h ops.length k
    rw [List.take_append_of_le_length (le_refl _), List.take_length] at this
    rwa [List.take_of_length_le (by omega)]

theorem ref_within_int_last (ops : List (Op K)) (h : ref_within_int ops) (k : K) :
    ((ref_run ops).count k : Int) ≤ INT_MAX := by
  have := h ops.length k
  rwa [List.take_length] at this

theorem run_bounded (ops : List (Op K)) (h : ref_within_int ops) :
    BST (run ops) ∧ counts_pos (run ops) ∧
      ((rbt_inorder (run ops) : List K) : Multiset K) = ref_run ops := by
  induction ops using List.reverseRecOn with
  | nil => exact ⟨trivial, trivial, rfl⟩
  | append_singleton ops op ih =>
    obtain ⟨hb, hc, hr⟩ := ih (ref_within_int_of_append ops op h)
    have hlast := ref_within_int_last _ h
    rw [run_append_singleton, ref_run_append_singleton] at *
    cases op with
    | insert key =>
      have hs : rbt_search (run ops) key < INT_MAX := by
        have h1 := hlast key
        rw [ref_step, Multiset.count_cons_self, ← hr, Multiset.coe_count] at h1
        rw [rbt_search_eq_count _ _ hb hc]
        push_cast at h1
        omega
      refine ⟨BST_rbt_insert _ key hb, counts_pos_rbt_insert _ key hc hs, ?_⟩
      simp only [apply_op, ref_step, ← hr, Multiset.cons_coe]
      exact Multiset.coe_eq_coe.mpr (rbt_inorder_rbt_insert _ key hc hs)
    | delete key =>
      refine ⟨BST_rbt_delete _ key hb, counts_pos_rbt_delete _ key hb hc, ?_⟩
      simp only [apply_op, ref_step, ← hr, Multiset.coe_erase]
      rw [rbt_inorder_rbt_delete _ key hb hc]

theorem card_ref_run_le (ops : List (Op K)) : Multiset.card (ref_run ops) ≤ ops.length := by
  induction ops using List.reverseRecOn with
  | nil => simp [ref_run]
  | append_singleton ops op ih =>
    rw [ref_run_append_singleton, List.length_append, List.length_singleton]
    cases op with
    | insert key =>
      simp only [ref_step, Multiset.card_cons]
      omega
    | delete key =>
      exact le_trans (Multiset.card_le_card (Multiset.erase_le _ _)) (by omega)

theorem ref_within_int_of_length (ops : List (Op K)) (h : ops.length ≤ 2147483647) :
    ref_within_int ops := by
  intro i k
  have h1 := Multiset.count_le_card k (ref_run (ops.take i))
  have h2 := card_ref_run_le (ops.take i)
  have h3 : (ops.take i).length ≤ ops.length := by
    rw [List.length_take]
    exact Nat.min_le_right _ _
  unfold INT_MAX
  omega

theorem ref_run_map_insert (ks : List K) :
    ref_run (ks.map Op.insert) = ((ks : List K) : Multiset K) := by
  induction ks using List.reverseRecOn with
  | nil => rfl
  | append_singleton ks a ih =>
    rw [List.map_append, List.map_singleton, ref_run_append_singleton, ih, ref_step,
      Multiset.cons_coe]
    exact Multiset.coe_eq_coe.mpr (List.perm_append_singleton a ks).symm

theorem ref_within_int_map_insert (ks : List K)
    (h : ∀ k ∈ ks, ks.count k ≤ 2147483647) : ref_within_int (ks.map Op.insert) := by
  intro i k
  rw [← List.map_take, ref_run_map_insert, Multiset.coe_count]
  have h1 : (ks.take i).count k ≤ ks.count k := (List.take_sublist i ks).count_le k
  by_cases hk : k ∈ ks
  · have := h k hk
    unfold INT_MAX
    omega
  · rw [List.count_eq_zero_of_not_mem hk] at h1
    unfold INT_MAX
    omega

/-! ### Search through the in-order sequence, whatever the counts -/

theorem entries_count_of_forall_ne (key : K) (es : List (K × Int))
    (h : ∀ e ∈ es, e.1 ≠ key) : entries_count key es = 0 := by
  induction es with
  | nil => rfl
  | cons e es ih =>
    obtain ⟨k, c⟩ := e
    have hk : k ≠ key := h (k, c) (List.mem_cons_self _ _)
    simp only [entries_count, if_neg hk]
    exact ih (fun e he => h e (List.mem_cons_of_mem _ he))

theorem entries_count_append_right (key : K) (l₁ l₂ : List (K × Int))
    (h : ∀ e ∈ l₁, e.1 ≠ key) :
    entries_count key (l₁ ++ l₂) = entries_count key l₂ := by
  induction l₁ with
  | nil => rfl
  | cons e es ih =>
    obtain ⟨k, c⟩ := e
    have hk : k ≠ key := h (k, c) (List.mem_cons_self _ _)
    simp only [List.cons_append, entries_count, if_neg hk]
    exact ih (fun e he => h e (List.mem_cons_of_mem _ he))

theorem entries_count_cons (key k : K) (c : Int) (es : List (K × Int)) :
    entries_count key ((k, c) :: es) = if k = key then c else entries_count key es := rfl

theorem entries_count_append_left (key : K) (l₁ l₂ : List (K × Int))
    (h : ∀ e ∈ l₂, e.1 ≠ key) :
    entries_count key (l₁ ++ l₂) = entries_count key l₁ := by
  induction l₁ with
  | nil => simpa [entries_count] using entries_count_of_forall_ne key l₂ h
  | cons e es ih =>
    obtain ⟨k, c⟩ := e
    rw [List.cons_append, entries_count_cons, entries_count_cons, ih]

theorem rbt_search_eq_entries_count (t : rbt K) (key : K) (h : BST t) :
    rbt_search t key = entries_count key (entries t) := by
  induction t with
  | NULL => rfl
  | node k c col l r ihl ihr =>
    obtain ⟨hl, hr, bl, br⟩ := h
    simp only [rbt_search, entries]
    split_ifs with h1 h2
    · rw [strcmp_lt_zero] at h1
      rw [ihl bl, entries_count_append_left]
      intro e he
      rcases List.mem_cons.mp he with rfl | he
      · exact ne_of_gt h1
      · exact ne_of_gt (lt_trans h1 (hr _ (mem_keys_of_mem_entries he)))
    · rw [strcmp_gt_zero] at h2
      rw [ihr br, entries_count_append_right _ _ _
        (fun e he => ne_of_lt (lt_trans (hl _ (mem_keys_of_mem_entries he)) h2))]
      simp only [entries_count, if_neg (ne_of_lt h2)]
    · rw [strcmp_lt_zero] at h1
      rw [strcmp_gt_zero] at h2
      have hk : key = k := le_antisymm (not_lt.mp h2) (not_lt.mp h1)
      subst hk
      rw [entries_count_append_right _ _ _
        (fun e he => ne_of_lt (hl _ (mem_keys_of_mem_entries he)))]
      simp [entries_count]

theorem rbt_search_rbt_fix (t : rbt K) (key : K) (h : BST t) :
    rbt_search (rbt_fix t) key = rbt_search t key := by
  rw [rbt_search_eq_entries_count _ _ ((BST_rbt_fix t).mpr h),
    rbt_search_eq_entries_count _ _ h, entries_rbt_fix]

theorem rbt_search_set_colour (c : rbt_colour) (t : rbt K) (key : K) :
    rbt_search (set_colour c t) key = rbt_search t key := by
  cases t <;> rfl

theorem rbt_search_rbt_insert_helper (t : rbt K) (key : K) (h : BST t) :
    rbt_search (rbt_insert_helper t key) key =
      if key ∈ keys t then wrap_int (rbt_search t key + 1) else 1 := by
  have hb := BST_rbt_insert_helper t key h
  induction t with
  | NULL =>
    rw [rbt_insert_helper] at hb ⊢
    rw [rbt_search_rbt_fix _ _ ((BST_rbt_fix _).mp hb)]
    simp [rbt_search, strcmp, keys]
  | node k c col l r ihl ihr =>
    obtain ⟨hl, hr, bl, br⟩ := h
    unfold rbt_insert_helper at hb ⊢
    by_cases h1 : strcmp key k < 0
    · rw [if_pos h1] at hb ⊢
      rw [rbt_search_rbt_fix _ _ ((BST_rbt_fix _).mp hb)]
      simp only [rbt_search, if_pos h1, ihl bl (BST_rbt_insert_helper l key bl)]
      rw [strcmp_lt_zero] at h1
      have : key ∈ keys (node k c col l r) ↔ key ∈ keys l := by
        simp only [keys, List.mem_append, List.mem_cons]
        constructor
        · rintro (h | h | h)
          · exact h
          · exact absurd h (ne_of_lt h1)
          · exact absurd (hr key h) (lt_asymm h1)
        · exact Or.inl
      simp only [this]
    by_cases h2 : strcmp key k > 0
    · rw [if_neg h1, if_pos h2] at hb ⊢
      rw [rbt_search_rbt_fix _ _ ((BST_rbt_fix _).mp hb)]
      simp only [rbt_search, if_neg h1, if_pos h2, ihr br (BST_rbt_insert_helper r key br)]
      rw [strcmp_gt_zero] at h2
      have : key ∈ keys (node k c col l r) ↔ key ∈ keys r := by
        simp only [keys, List.mem_append, List.mem_cons]
        constructor
        · rintro (h | h | h)
          · exact absurd (hl key h) (lt_asymm h2)
          · exact absurd h (ne_of_gt h2)
          · exact h
        · exact fun h => Or.inr (Or.inr h)
      simp only [this]
    · rw [if_neg h1, if_neg h2] at hb ⊢
      rw [rbt_search_rbt_fix _ _ ((BST_rbt_fix _).mp hb)]
      simp only [rbt_search, if_neg h1, if_neg h2]
      rw [strcmp_lt_zero] at h1
      rw [strcmp_gt_zero] at h2
      have hk : key = k := le_antisymm (not_lt.mp h2) (not_lt.mp h1)
      subst hk
      simp [keys]

theorem rbt_search_rbt_insert (t : rbt K) (key : K) (h : BST t) :
    rbt_search (rbt_insert t key) key =
      if key ∈ keys t then wrap_int (rbt_search t key + 1) else 1 := by
  rw [rbt_insert, rbt_search_set_colour, rbt_search_rbt_insert_helper t key h]

theorem mem_keys_rbt_insert (t : rbt K) (key : K) : key ∈ keys (rbt_insert t key) := by
  rw [rbt_insert, keys_set_colour, mem_keys_rbt_insert_helper]
  exact Or.inl rfl

theorem entries_count_dec_entries (key : K) (es : List (K × Int))
    (h : (es.map Prod.fst).Pairwise (· < ·)) :
    entries_count key (dec_entries key es) =
      if 1 < entries_count key es then entries_count key es - 1 else 0 := by
  induction es with
  | nil => rfl
  | cons e es ih =>
    obtain ⟨k, c⟩ := e
    simp only [List.map_cons, List.pairwise_cons] at h
    rw [dec_entries_cons]
    by_cases hk : k = key
    · subst hk
      simp only [if_true, entries_count]
      by_cases hc : c > 1
      · simp [hc, entries_count]
      · have h0 : entries_count k es = 0 := by
          apply entries_count_of_forall_ne
          intro e he
          exact ne_of_gt (h.1 e.1 (List.mem_map_of_mem _ he))
        simp [hc, h0]
    · simp only [if_neg hk, entries_count]
      exact ih h.2

theorem rbt_search_rbt_delete (t : rbt K) (key : K) (h : BST t) :
    rbt_search (rbt_delete t key) key =
      if 1 < rbt_search t key then rbt_search t key - 1 else 0 := by
  rw [rbt_search_eq_entries_count _ _ (BST_rbt_delete t key h),
    rbt_search_eq_entries_count _ _ h, entries_rbt_delete t key h]
  apply entries_count_dec_entries
  rw [← keys_eq_map_entries, ← BST_iff_pairwise]
  exact h

theorem rbt_search_insert_n (key : K) (n : Nat) (t : rbt K) (h : BST t)
    (hk : key ∈ keys t) (h1 : 1 ≤ rbt_search t key)
    (h2 : rbt_search t key + n ≤ INT_MAX) :
    BST (insert_n key n t) ∧ rbt_search (insert_n key n t) key = rbt_search t key + n := by
  induction n generalizing t with
  | zero => exact ⟨h, by simp [insert_n]⟩
  | succ n ih =>
    have hs : rbt_search (rbt_insert t key) key = rbt_search t key + 1 := by
      rw [rbt_search_rbt_insert t key h, if_pos hk]
      apply wrap_int_succ _ h1
      push_cast at h2
      omega
    obtain ⟨h3, h4⟩ := ih (rbt_insert t key) (BST_rbt_insert t key h)
      (mem_keys_rbt_insert t key) (by omega) (by rw [hs]; push_cast at h2; omega)
    refine ⟨h3, ?_⟩
    simp only [insert_n, h4, hs]
    push_cast
    ring

theorem rbt_search_insert_n_of_zero (key : K) (n : Nat) (t : rbt K) (h : BST t)
    (h0 : rbt_search t key = 0) (hn : (n : Int) ≤ INT_MAX) :
    BST (insert_n key n t) ∧ rbt_search (insert_n key n t) key = n := by
  cases n with
  | zero => exact ⟨h, by simpa [insert_n] using h0⟩
  | succ n =>
    have hs : rbt_search (rbt_insert t key) key = 1 := by
      rw [rbt_search_rbt_insert t key h, h0]
      split_ifs
      · decide
      · rfl
    obtain ⟨h3, h4⟩ := rbt_search_insert_n key n (rbt_insert t key) (BST_rbt_insert t key h)
      (mem_keys_rbt_insert t key) (by omega) (by rw [hs]; push_cast at hn; omega)
    refine ⟨h3, ?_⟩
    simp only [insert_n, h4, hs]
    push_cast
    ring

theorem rbt_search_delete_n (key : K) (m : Nat) (t : rbt K) (h : BST t)
    (hm : (m : Int) ≤ rbt_search t key) :
    rbt_search (delete_n key m t) key = rbt_search t key - m := by
  induction m generalizing t with
  | zero => simp [delete_n]
  | succ m ih =>
    have h1 : 1 ≤ rbt_search t key := by
      push_cast at hm
      omega
    have h2 : rbt_search (rbt_delete t key) key = rbt_search t key - 1 := by
      rw [rbt_search_rbt_delete t key h]
      split_ifs <;> omega
    simp only [delete_n]
    rw [ih (rbt_delete t key) (BST_rbt_delete t key h)
      (by rw [h2]; push_cast at hm; omega), h2]
    push_cast
    ring

theorem mem_keys_insert_all (ks : List K) (x : K) : x ∈ keys (insert_all ks) ↔ x ∈ ks := by
  have h : ∀ (l : List K) (t : rbt K),
      x ∈ keys (l.foldl rbt_insert t) ↔ x ∈ l ∨ x ∈ keys t := by
    intro l
    induction l with
    | nil => simp
    | cons a l ih =>
      intro t
      rw [List.foldl_cons, ih, rbt_insert, keys_set_colour, mem_keys_rbt_insert_helper,
        List.mem_cons]
      tauto
  simpa [insert_all, rbt_new, keys] using h ks NULL

theorem rbt_delete_of_not_mem (t : rbt K) (k : K) (h : k ∉ keys t) : rbt_delete t k = t := by
  induction t with
  | NULL => rw [rbt_delete]
  | node k0 c col l r ihl ihr =>
    simp only [keys, List.mem_append, List.mem_cons, not_or] at h
    obtain ⟨hl, hk, hr⟩ := h
    by_cases h1 : strcmp k k0 < 0
    · rw [rbt_delete, if_pos h1, ihl hl]
    by_cases h2 : strcmp k k0 > 0
    · rw [rbt_delete, if_neg h1, if_pos h2, ihr hr]
    rw [strcmp_lt_zero] at h1
    rw [strcmp_gt_zero] at h2
    exact absurd (le_antisymm (not_lt.mp h2) (not_lt.mp h1)) hk

theorem rbt_delete_eq_decrement_count (t : rbt K) (k : K) (h : 1 < rbt_search t k) :
    rbt_delete t k = decrement_count t k := by
  induction t with
  | NULL => simp [rbt_search] at h
  | node k0 c col l r ihl ihr =>
    unfold rbt_search at h
    by_cases h1 : strcmp k k0 < 0
    · rw [if_pos h1] at h
      rw [rbt_delete, if_pos h1, ihl h]
      rw [strcmp_lt_zero] at h1
      rw [decrement_count, if_pos h1]
    by_cases h2 : strcmp k k0 > 0
    · rw [if_neg h1, if_pos h2] at h
      rw [rbt_delete, if_neg h1, if_pos h2, ihr h]
      rw [strcmp_lt_zero] at h1
      rw [strcmp_gt_zero] at h2
      rw [decrement_count, if_neg h1, if_pos h2]
    rw [if_neg h1, if_neg h2] at h
    rw [rbt_delete, if_neg h1, if_neg h2, if_pos h]
    rw [strcmp_lt_zero] at h1
    rw [strcmp_gt_zero] at h2
    rw [decrement_count, if_neg h1, if_neg h2]

theorem skeleton_decrement_count (t : rbt K) (k : K) :
    skeleton (decrement_count t k) = skeleton t := by
  induction t with
  | NULL => rfl
  | node k0 c col l r ihl ihr =>
    unfold decrement_count
    split_ifs <;> simp [skeleton, ihl, ihr]

theorem rbt_search_decrement_count_self (t : rbt K) (k : K) (h : 1 < rbt_search t k) :
    rbt_search (decrement_count t k) k = rbt_search t k - 1 := by
  induction t with
  | NULL => simp [rbt_search] at h
  | node k0 c col l r ihl ihr =>
    unfold rbt_search at h
    unfold decrement_count
    by_cases h1 : strcmp k k0 < 0
    · rw [if_pos h1] at h
      rw [if_pos ((strcmp_lt_zero _ _).mp h1)]
      simp only [rbt_search, if_pos h1, ihl h]
    by_cases h2 : strcmp k k0 > 0
    · rw [if_neg h1, if_pos h2] at h
      rw [if_neg (fun hh => h1 ((strcmp_lt_zero _ _).mpr hh)),
        if_pos ((strcmp_gt_zero _ _).mp h2)]
      simp only [rbt_search, if_neg h1, if_pos h2, ihr h]
    rw [if_neg (fun hh => h1 ((strcmp_lt_zero _ _).mpr hh)),
      if_neg (fun hh => h2 ((strcmp_gt_zero _ _).mpr hh))]
    simp only [rbt_search, if_neg h1, if_neg h2]

theorem rbt_search_decrement_count_of_ne (t : rbt K) (k k' : K) (h : k' ≠ k) :
    rbt_search (decrement_count t k) k' = rbt_search t k' := by
  induction t with
  | NULL => rfl
  | node k0 c col l r ihl ihr =>
    unfold decrement_count
    split_ifs with h1 h2
    · simp only [rbt_search, ihl]
    · simp only [rbt_search, ihr]
    · have hk : k = k0 := le_antisymm (not_lt.mp h2) (not_lt.mp h1)
      subst hk
      have h3 : strcmp k' k ≠ 0 := by
        unfold strcmp
        split_ifs with h4 h5
        · decide
        · decide
        · exact absurd (le_antisymm (not_lt.mp h5) (not_lt.mp h4)) h
      simp only [rbt_search]
      split_ifs with h4 h5
      · rfl
      · rfl
      · omega

/-! ### Insertion keeps the red-black invariant -/

theorem RB_rbt_insert_helper (t : rbt K) (n : Nat) (key : K) (h : RB t n) :
    (IS_RED t = false → RB (rbt_insert_helper t key) n) ∧
    (IS_RED t = true → ∃ k c l r, rbt_insert_helper t key = node k c RED l r ∧
      RB l n ∧ RB r n ∧ (IS_RED l = false ∨ IS_RED r = false)) := by
  induction h with
  | nil =>
    refine ⟨fun _ => ?_, fun h => by simp at h⟩
    rw [rbt_insert_helper, rbt_fix_quiet _ _ _ _ _ (RB_quiet RB.nil) (RB_quiet RB.nil)]
    exact RB.red rfl rfl RB.nil RB.nil
  | @red k c l r n h1 h2 hl hr ihl ihr =>
    refine ⟨fun h => by simp at h, fun _ => ?_⟩
    unfold rbt_insert_helper
    split_ifs with c1 c2
    · have hl' := ihl.1 h1
      rw [rbt_fix_quiet _ _ _ _ _ (RB_quiet hl') (RB_quiet hr)]
      exact ⟨_, _, _, _, rfl, hl', hr, Or.inr h2⟩
    · have hr' := ihr.1 h2
      rw [rbt_fix_quiet _ _ _ _ _ (RB_quiet hl) (RB_quiet hr')]
      exact ⟨_, _, _, _, rfl, hl, hr', Or.inl h1⟩
    · rw [rbt_fix_quiet _ _ _ _ _ (RB_quiet hl) (RB_quiet hr)]
      exact ⟨_, _, _, _, rfl, hl, hr, Or.inl h1⟩
  | @black k c l r n hl hr ihl ihr =>
    refine ⟨fun _ => ?_, fun h => by simp at h⟩
    unfold rbt_insert_helper
    split_ifs with c1 c2
    · apply RB_rbt_fix_black_left _ _ _ _ _ hr
      by_cases hred : IS_RED l = true
      · exact Or.inr (ihl.2 hred)
      · exact Or.inl (ihl.1 (eq_false_of_ne_true_red hred))
    · apply RB_rbt_fix_black_right _ _ _ _ _ hl
      by_cases hred : IS_RED r = true
      · exact Or.inr (ihr.2 hred)
      · exact Or.inl (ihr.1 (eq_false_of_ne_true_red hred))
    · rw [rbt_fix_quiet _ _ _ _ _ (RB_quiet hl) (RB_quiet hr)]
      exact RB.black hl hr

theorem RB_rbt_insert (t : rbt K) (key : K) (h : ∃ n, RB t n) (hb : IS_RED t = false) :
    (∃ n, RB (rbt_insert t key) n) ∧ IS_RED (rbt_insert t key) = false := by
  obtain ⟨n, h⟩ := h
  have h' := (RB_rbt_insert_helper t n key h).1 hb
  unfold rbt_insert
  refine ⟨?_, IS_RED_set_colour_BLACK _⟩
  generalize rbt_insert_helper t key = t' at h'
  cases h' with
  | nil => exact ⟨0, RB.nil⟩
  | red _ _ hl hr => exact ⟨n + 1, RB.black hl hr⟩
  | black hl hr => exact ⟨_, RB.black hl hr⟩

theorem RB_foldl_rbt_insert (ks : List K) (t : rbt K) (h : ∃ n, RB t n)
    (hb : IS_RED t = false) :
    (∃ n, RB (ks.foldl rbt_insert t) n) ∧ IS_RED (ks.foldl rbt_insert t) = false := by
  induction ks generalizing t with
  | nil => exact ⟨h, hb⟩
  | cons k ks ih =>
    obtain ⟨h1, h2⟩ := RB_rbt_insert t k h hb
    exact ih (rbt_insert t k) h1 h2

theorem RB_insert_all (ks : List K) :
    (∃ n, RB (insert_all ks) n) ∧ IS_RED (insert_all ks) = false :=
  RB_foldl_rbt_insert ks NULL ⟨0, RB.nil⟩ rfl

theorem nonNULL_rbt_insert_helper (t : rbt K) (key : K) :
    nonNULL (rbt_insert_helper t key) = true := by
  cases t with
  | NULL => exact nonNULL_rbt_fix _ rfl
  | node k c col l r =>
    unfold rbt_insert_helper
    split_ifs <;> exact nonNULL_rbt_fix _ rfl

/-! ### Insertion into a tree without a red node with a red child -/

theorem no_red_red_rbt_insert_helper (t : rbt K) (key : K) (hn : no_red_red t) :
    (IS_RED t = false → no_red_red (rbt_insert_helper t key)) ∧
    (IS_RED t = true → ∃ k c l r, rbt_insert_helper t key = node k c RED l r ∧
      no_red_red l ∧ no_red_red r ∧ (IS_RED l = false ∨ IS_RED r = false)) := by
  induction t with
  | NULL =>
    refine ⟨fun _ => ?_, fun h => by simp at h⟩
    rw [rbt_insert_helper, rbt_fix_quiet _ _ _ _ _ (fun h => by simp at h)
      (fun h => by simp at h)]
    exact ⟨fun _ => ⟨rfl, rfl⟩, trivial, trivial⟩
  | node k c col l r ihl ihr =>
    obtain ⟨hcol, nl, nr⟩ := hn
    have ql := quiet_of_no_red_red nl
    have qr := quiet_of_no_red_red nr
    cases col with
    | RED =>
      obtain ⟨h1, h2⟩ := hcol rfl
      refine ⟨fun h => by simp at h, fun _ => ?_⟩
      unfold rbt_insert_helper
      split_ifs with c1 c2
      · have nl' := (ihl nl).1 h1
        rw [rbt_fix_quiet _ _ _ _ _ (quiet_of_no_red_red nl') qr]
        exact ⟨_, _, _, _, rfl, nl', nr, Or.inr h2⟩
      · have nr' := (ihr nr).1 h2
        rw [rbt_fix_quiet _ _ _ _ _ ql (quiet_of_no_red_red nr')]
        exact ⟨_, _, _, _, rfl, nl, nr', Or.inl h1⟩
      · rw [rbt_fix_quiet _ _ _ _ _ ql qr]
        exact ⟨_, _, _, _, rfl, nl, nr, Or.inl h1⟩
    | BLACK =>
      refine ⟨fun _ => ?_, fun h => by simp at h⟩
      unfold rbt_insert_helper
      split_ifs with c1 c2
      · by_cases hred : IS_RED l = true
        · obtain ⟨lk, lc, a, b, e, na, nb, hab⟩ := (ihl nl).2 hred
          rw [e]
          by_cases hch : IS_RED a = true ∨ IS_RED b = true
          · exact (no_red_red_rbt_fix_left _ _ _ _ _ _ _ _ na nb nr hab hch).1
          · have hch' := not_or.mp hch
            have nl' : no_red_red (node lk lc RED a b) :=
              ⟨fun _ => ⟨eq_false_of_ne_true_red hch'.1, eq_false_of_ne_true_red hch'.2⟩,
                na, nb⟩
            rw [rbt_fix_quiet _ _ _ _ _ (quiet_of_no_red_red nl') qr]
            exact ⟨fun hc => (by cases hc), nl', nr⟩
        · have nl' := (ihl nl).1 (eq_false_of_ne_true_red hred)
          rw [rbt_fix_quiet _ _ _ _ _ (quiet_of_no_red_red nl') qr]
          exact ⟨fun hc => (by cases hc), nl', nr⟩
      · by_cases hred : IS_RED r = true
        · obtain ⟨rk, rc, a, b, e, na, nb, hab⟩ := (ihr nr).2 hred
          rw [e]
          by_cases hch : IS_RED a = true ∨ IS_RED b = true
          · exact (no_red_red_rbt_fix_right _ _ _ _ _ _ _ _ na nb nl hab hch).1
          · have hch' := not_or.mp hch
            have nr' : no_red_red (node rk rc RED a b) :=
              ⟨fun _ => ⟨eq_false_of_ne_true_red hch'.1, eq_false_of_ne_true_red hch'.2⟩,
                na, nb⟩
            rw [rbt_fix_quiet _ _ _ _ _ ql (quiet_of_no_red_red nr')]
            exact ⟨fun hc => (by cases hc), nl, nr'⟩
        · have nr' := (ihr nr).1 (eq_false_of_ne_true_red hred)
          rw [rbt_fix_quiet _ _ _ _ _ ql (quiet_of_no_red_red nr')]
          exact ⟨fun hc => (by cases hc), nl, nr'⟩
      · rw [rbt_fix_quiet _ _ _ _ _ ql qr]
        exact ⟨fun hc => (by cases hc), nl, nr⟩

theorem rbt_fix_getLast_rbt_fix_calls (t : rbt K) (key : K) :
    (rbt_fix_calls t key).getLast?.map rbt_fix = some (rbt_insert_helper t key) := by
  cases t with
  | NULL => rfl
  | node k c col l r =>
    by_cases c1 : strcmp key k < 0
    · simp [rbt_fix_calls, rbt_insert_helper, c1]
    by_cases c2 : strcmp key k > 0
    · simp [rbt_fix_calls, rbt_insert_helper, c1, c2]
    · simp [rbt_fix_calls, rbt_insert_helper, c1, c2]

theorem patterns_matching_insert_left (k : K) (c : Int) (col : rbt_colour) (l r : rbt K)
    (key : K) (nl : no_red_red l) (nr : no_red_red r) :
    patterns_matching (node k c col (rbt_insert_helper l key) r) ≤ 1 := by
  by_cases hred : IS_RED l = true
  · obtain ⟨lk, lc, a, b, e, _, _, hab⟩ := (no_red_red_rbt_insert_helper l key nl).2 hred
    rw [e]
    exact patterns_matching_left _ _ _ _ _ _ _ _ hab (quiet_of_no_red_red nr)
  · have nl' := (no_red_red_rbt_insert_helper l key nl).1 (eq_false_of_ne_true_red hred)
    rw [patterns_matching_of_quiet _ _ _ _ _ (quiet_of_no_red_red nl')
      (quiet_of_no_red_red nr)]
    exact Nat.zero_le _

theorem patterns_matching_insert_right (k : K) (c : Int) (col : rbt_colour) (l r : rbt K)
    (key : K) (nl : no_red_red l) (nr : no_red_red r) :
    patterns_matching (node k c col l (rbt_insert_helper r key)) ≤ 1 := by
  by_cases hred : IS_RED r = true
  · obtain ⟨rk, rc, a, b, e, _, _, hab⟩ := (no_red_red_rbt_insert_helper r key nr).2 hred
    rw [e]
    exact patterns_matching_right _ _ _ _ _ _ _ _ hab (quiet_of_no_red_red nl)
  · have nr' := (no_red_red_rbt_insert_helper r key nr).1 (eq_false_of_ne_true_red hred)
    rw [patterns_matching_of_quiet _ _ _ _ _ (quiet_of_no_red_red nl)
      (quiet_of_no_red_red nr')]
    exact Nat.zero_le _

theorem patterns_matching_rbt_fix_calls (t : rbt K) (key : K) (hn : no_red_red t) :
    ∀ x ∈ rbt_fix_calls t key, patterns_matching x ≤ 1 := by
  induction t with
  | NULL =>
    intro x hx
    simp only [rbt_fix_calls, List.mem_singleton] at hx
    rw [hx, patterns_matching_of_quiet _ _ _ _ _ (fun h => by simp at h)
      (fun h => by simp at h)]
    exact Nat.zero_le _
  | node k c col l r ihl ihr =>
    obtain ⟨_, nl, nr⟩ := hn
    intro x hx
    unfold rbt_fix_calls at hx
    split_ifs at hx with c1 c2
    · rcases List.mem_append.mp hx with h | h
      · exact ihl nl x h
      · rw [List.mem_singleton.mp h]
        exact patterns_matching_insert_left k c col l r key nl nr
    · rcases List.mem_append.mp hx with h | h
      · exact ihr nr x h
      · rw [List.mem_singleton.mp h]
        exact patterns_matching_insert_right k c col l r key nl nr
    · rw [List.mem_singleton.mp hx,
        patterns_matching_of_quiet _ _ _ _ _ (quiet_of_no_red_red nl) (quiet_of_no_red_red nr)]
      exact Nat.zero_le _

theorem rbt_insert_helper_checked_eq (t : rbt K) (key : K) :
    rbt_insert_helper_checked t key = some (rbt_insert_helper t key) := by
  induction t with
  | NULL => exact rbt_fix_checked_eq _
  | node k c col l r ihl ihr =>
    by_cases c1 : strcmp key k < 0
    · simp [rbt_insert_helper_checked, rbt_insert_helper, c1, ihl, rbt_fix_checked_eq]
    by_cases c2 : strcmp key k > 0
    · simp [rbt_insert_helper_checked, rbt_insert_helper, c1, c2, ihr, rbt_fix_checked_eq]
    · simp [rbt_insert_helper_checked, rbt_insert_helper, c1, c2, rbt_fix_checked_eq]

theorem rbt_insert_checked_eq (t : rbt K) (key : K) :
    rbt_insert_checked t key = some (rbt_insert t key) := by
  have h := nonNULL_rbt_insert_helper t key
  unfold rbt_insert_checked rbt_insert
  rw [rbt_insert_helper_checked_eq]
  cases hh : rbt_insert_helper t key with
  | NULL =>
    rw [hh] at h
    simp at h
  | node _ _ _ _ _ => rfl

/-! ### Unfolding `rbt_delete` at a node -/

theorem rbt_delete_lt (k : K) (c : Int) (col : rbt_colour) (l r : rbt K) (key : K)
    (h : key < k) : rbt_delete (node k c col l r) key = node k c col (rbt_delete l key) r := by
  rw [rbt_delete, if_pos ((strcmp_lt_zero _ _).mpr h)]

theorem rbt_delete_gt (k : K) (c : Int) (col : rbt_colour) (l r : rbt K) (key : K)
    (h : k < key) : rbt_delete (node k c col l r) key = node k c col l (rbt_delete r key) := by
  rw [rbt_delete, if_neg (fun h' => lt_asymm h ((strcmp_lt_zero _ _).mp h')),
    if_pos ((strcmp_gt_zero _ _).mpr h)]

theorem rbt_delete_eq (k : K) (c : Int) (col : rbt_colour) (l r : rbt K) :
    rbt_delete (node k c col l r) k =
      if c > 1 then node k (c - 1) col l r
      else if nonNULL l && nonNULL r then
        node (successor k c r).1 (successor k c r).2 col l
          (rbt_delete (set_successor k c r) k)
      else if nonNULL l || nonNULL r then (if nonNULL l then l else r)
      else NULL := by
  rw [rbt_delete, if_neg (fun h' => lt_irrefl _ ((strcmp_lt_zero _ _).mp h')),
    if_neg (fun h' => lt_irrefl _ ((strcmp_gt_zero _ _).mp h'))]

theorem rbt_delete_cases_lt (k : K) (c : Int) (col : rbt_colour) (l r : rbt K) (key : K)
    (h : key < k) :
    rbt_delete_cases (node k c col l r) key =
      delete_case.go_left :: rbt_delete_cases l key := by
  rw [rbt_delete_cases, if_pos ((strcmp_lt_zero _ _).mpr h)]

theorem rbt_delete_cases_eq (k : K) (c : Int) (col : rbt_colour) (l r : rbt K) :
    rbt_delete_cases (node k c col l r) k =
      if c > 1 then [delete_case.decrement]
      else if nonNULL l && nonNULL r then
        delete_case.two_children :: rbt_delete_cases (set_successor k c r) k
      else if nonNULL l || nonNULL r then [delete_case.one_child]
      else [delete_case.leaf] := by
  rw [rbt_delete_cases, if_neg (fun h' => lt_irrefl _ ((strcmp_lt_zero _ _).mp h')),
    if_neg (fun h' => lt_irrefl _ ((strcmp_gt_zero _ _).mp h'))]

theorem length_rbt_delete_cases (t : rbt K) (key : K) :
    (rbt_delete_cases t key).length ≤ height t + 1 := by
  induction t, key using rbt_delete_cases.induct with
  | case1 key => simp [rbt_delete_cases, height]
  | case2 k c col l r key h1 ih =>
    rw [rbt_delete_cases, if_pos h1]
    simp only [List.length_cons, height]
    omega
  | case3 k c col l r key h1 h2 ih =>
    rw [rbt_delete_cases, if_neg h1, if_pos h2]
    simp only [List.length_cons, height]
    omega
  | case4 k c col l r key h1 h2 h3 =>
    rw [rbt_delete_cases, if_neg h1, if_neg h2, if_pos h3]
    simp [height]
  | case5 k c col l r key h1 h2 h3 h4 ih =>
    rw [rbt_delete_cases, if_neg h1, if_neg h2, if_neg h3, if_pos h4]
    rw [height_set_successor] at ih
    simp only [List.length_cons, height]
    omega
  | case6 k c col l r key h1 h2 h3 h4 h5 =>
    rw [rbt_delete_cases, if_neg h1, if_neg h2, if_neg h3, if_neg h4, if_pos h5]
    simp [height]
  | case7 k c col l r key h1 h2 h3 h4 h5 =>
    rw [rbt_delete_cases, if_neg h1, if_neg h2, if_neg h3, if_neg h4, if_neg h5]
    simp [height]

theorem rbt_delete_set_successor (r : rbt K) (k : K) (c : Int) (hc : ¬ c > 1)
    (hr : nonNULL r = true) (hlt : ∀ x ∈ keys r, k < x) :
    rbt_delete (set_successor k c r) k = remove_successor r ∧
    ∃ last, (last = delete_case.one_child ∨ last = delete_case.leaf) ∧
      rbt_delete_cases (set_successor k c r) k =
        List.replicate (left_depth r - 1) delete_case.go_left ++ [last] := by
  induction r with
  | NULL => simp at hr
  | node rk rc rcol rl rr ihl _ =>
    cases hl : nonNULL rl with
    | false =>
      have hnl : rl = NULL := by
        cases rl with
        | NULL => rfl
        | node _ _ _ _ _ => simp at hl
      subst hnl
      simp only [set_successor, nonNULL_NULL, Bool.false_eq_true, if_false, remove_successor,
        left_depth, Nat.zero_add, Nat.sub_self, List.replicate_zero, List.nil_append]
      rw [rbt_delete_eq, rbt_delete_cases_eq, if_neg hc, if_neg hc]
      cases hrr : nonNULL rr with
      | false =>
        have hnr : rr = NULL := by
          cases rr with
          | NULL => rfl
          | node _ _ _ _ _ => simp at hrr
        subst hnr
        exact ⟨by simp, delete_case.leaf, Or.inr rfl, by simp⟩
      | true => exact ⟨by simp, delete_case.one_child, Or.inl rfl, by simp⟩
    | true =>
      have hk : k < rk := hlt rk (by simp [keys])
      obtain ⟨h1, last, hlast, h2⟩ := ihl hl (fun x hx => hlt x (by simp [keys, hx]))
      have hd : 1 ≤ left_depth rl := by
        cases rl with
        | NULL => simp at hl
        | node _ _ _ _ _ => simp [left_depth]
      refine ⟨?_, last, hlast, ?_⟩
      · simp only [set_successor, hl, if_true, remove_successor]
        rw [rbt_delete_lt _ _ _ _ _ _ hk, h1]
      · simp only [set_successor, hl, if_true, left_depth, Nat.add_sub_cancel]
        rw [rbt_delete_cases_lt _ _ _ _ _ _ hk, h2]
        obtain ⟨n, hn⟩ : ∃ n, left_depth rl = n + 1 := ⟨left_depth rl - 1, by omega⟩
        rw [hn, Nat.add_sub_cancel, List.replicate_succ, List.cons_append]

/-! ### Inserting a key that is present -/

theorem IS_RED_increment_count (t : rbt K) (key : K) :
    IS_RED (increment_count t key) = IS_RED t := by
  cases t with
  | NULL => rfl
  | node k c col l r =>
    unfold increment_count
    split_ifs <;> rfl

theorem quiet_increment_count (t : rbt K) (key : K) (h : quiet t) :
    quiet (increment_count t key) := by
  cases t with
  | NULL => exact h
  | node k c col l r =>
    unfold quiet at h ⊢
    unfold increment_count
    split_ifs <;> simpa [IS_RED_increment_count] using h

theorem rbt_insert_helper_of_mem (t : rbt K) (key : K) (hb : BST t) (hn : no_red_red t)
    (hk : key ∈ keys t) (hlo : INT_MIN ≤ rbt_search t key)
    (hhi : rbt_search t key < INT_MAX) :
    rbt_insert_helper t key = increment_count t key := by
  induction t with
  | NULL => simp [keys] at hk
  | node k c col l r ihl ihr =>
    obtain ⟨hl, hr, bl, br⟩ := hb
    obtain ⟨_, nl, nr⟩ := hn
    simp only [keys, List.mem_append, List.mem_cons] at hk
    unfold rbt_search at hlo hhi
    unfold rbt_insert_helper increment_count
    by_cases h1 : key < k
    · have hkl : key ∈ keys l := by
        rcases hk with h | h | h
        · exact h
        · exact absurd h (ne_of_lt h1)
        · exact absurd (hr key h) (lt_asymm h1)
      rw [if_pos ((strcmp_lt_zero _ _).mpr h1)] at hlo hhi
      rw [if_pos ((strcmp_lt_zero _ _).mpr h1), if_pos h1, ihl bl nl hkl hlo hhi]
      exact rbt_fix_quiet _ _ _ _ _ (quiet_increment_count l key (quiet_of_no_red_red nl))
        (quiet_of_no_red_red nr)
    by_cases h2 : k < key
    · have hkr : key ∈ keys r := by
        rcases hk with h | h | h
        · exact absurd (hl key h) (lt_asymm h2)
        · exact absurd h (ne_of_gt h2)
        · exact h
      rw [if_neg (fun h' => h1 ((strcmp_lt_zero _ _).mp h')),
        if_pos ((strcmp_gt_zero _ _).mpr h2)] at hlo hhi
      rw [if_neg (fun h' => h1 ((strcmp_lt_zero _ _).mp h')),
        if_pos ((strcmp_gt_zero _ _).mpr h2), if_neg h1, if_pos h2, ihr br nr hkr hlo hhi]
      exact rbt_fix_quiet _ _ _ _ _ (quiet_of_no_red_red nl)
        (quiet_increment_count r key (quiet_of_no_red_red nr))
    · rw [if_neg (fun h' => h1 ((strcmp_lt_zero _ _).mp h')),
        if_neg (fun h' => h2 ((strcmp_gt_zero _ _).mp h'))] at hlo hhi
      rw [if_neg (fun h' => h1 ((strcmp_lt_zero _ _).mp h')),
        if_neg (fun h' => h2 ((strcmp_gt_zero _ _).mp h')), if_neg h1, if_neg h2,
        wrap_int_of_range (c + 1) (by unfold INT_MIN at *; omega) (by omega)]
      exact rbt_fix_quiet _ _ _ _ _ (quiet_of_no_red_red nl) (quiet_of_no_red_red nr)

/-! ### Inserting one key until the count overflows -/

theorem rbt_insert_NULL (k : K) : rbt_insert NULL k = node k 1 BLACK NULL NULL := by
  rw [rbt_insert, rbt_insert_helper, rbt_fix_quiet _ _ _ _ _ (fun h => by simp at h)
    (fun h => by simp at h)]
  rfl

theorem rbt_insert_single (k : K) (c : Int) :
    rbt_insert (node k c BLACK NULL NULL) k = node k (wrap_int (c + 1)) BLACK NULL NULL := by
  rw [rbt_insert, rbt_insert_helper,
    if_neg (fun h' => lt_irrefl _ ((strcmp_lt_zero _ _).mp h')),
    if_neg (fun h' => lt_irrefl _ ((strcmp_gt_zero _ _).mp h')),
    rbt_fix_quiet _ _ _ _ _ (fun h => by simp at h) (fun h => by simp at h)]
  rfl

theorem foldl_rbt_insert_replicate (k : K) (n : Nat) (c : Int) (h1 : 1 ≤ c)
    (h2 : c + n ≤ INT_MAX) :
    (List.replicate n k).foldl rbt_insert (node k c BLACK NULL NULL) =
      node k (c + n) BLACK NULL NULL := by
  induction n generalizing c with
  | zero => simp
  | succ n ih =>
    push_cast at h2
    rw [List.replicate_succ, List.foldl_cons, rbt_insert_single,
      wrap_int_succ c h1 (by omega), ih (c + 1) (by omega) (by omega)]
    push_cast
    ring_nf

theorem insert_all_replicate_overflow (k : K) :
    insert_all (List.replicate 2147483648 k) = node k (-2147483648) BLACK NULL NULL := by
  show insert_all (List.replicate (2147483646 + 1 + 1) k) = _
  have e : List.replicate (2147483646 + 1 + 1) k =
      k :: (List.replicate 2147483646 k ++ [k]) := by
    rw [List.replicate_succ', List.replicate_succ, List.cons_append]
  rw [e, insert_all, List.foldl_cons, List.foldl_append, rbt_new, rbt_insert_NULL,
    foldl_rbt_insert_replicate k 2147483646 1 (le_refl _) (by decide), List.foldl_cons,
    List.foldl_nil, rbt_insert_single]
  have : wrap_int (1 + ((2147483646 : Nat) : Int) + 1) = -2147483648 := by decide
  rw [this]

theorem run_replicate_insert (k : K) (n : Nat) :
    run (List.replicate n (Op.insert k)) = insert_all (List.replicate n k) := by
  rw [insert_all_eq_run, List.map_replicate]

theorem insert_n_eq_foldl (k : K) (n : Nat) (t : rbt K) :
    insert_n k n t = (List.replicate n k).foldl rbt_insert t := by
  induction n generalizing t with
  | zero => rfl
  | succ n ih => rw [insert_n, ih, List.replicate_succ, List.foldl_cons]

end Order

end Lemmas

section Claims

variable {K : Type} [LinearOrder K]

/-- C1, as amended: for every sequence of `rbt_insert` / `rbt_delete` calls applied to
the empty tree during which no key ever has more than `INT_MAX` occurrences, and
every key `k`, `rbt_search` on the resulting tree returns the multiplicity of `k` in
the reference multiset obtained by replaying the same calls (insert adds one
occurrence, delete removes one occurrence if there is one). -/
theorem rbt_search_run_eq_reference (ops : List (Op K)) (k : K) (h : ref_within_int ops) :
    rbt_search (run ops) k = ((ref_run ops).count k : Int) := by
  obtain ⟨hb, hc, hr⟩ := run_bounded ops h
  rw [rbt_search_eq_count _ _ hb hc, ← hr, Multiset.coe_count]

/-- Witness for C1 as amended: four calls on the keys `1`, `2`, `3`. -/
theorem rbt_search_run_eq_reference_witness :
    ref_within_int [Op.insert 1, Op.insert 1, Op.delete 2, Op.insert 3] ∧
    rbt_search (run [Op.insert 1, Op.insert 1, Op.delete 2, Op.insert 3]) 1 =
      ((ref_run [Op.insert 1, Op.insert 1, Op.delete 2, Op.insert 3]).count 1 : Int) :=
  ⟨ref_within_int_of_length _ (by decide),
    rbt_search_run_eq_reference _ 1 (ref_within_int_of_length _ (by decide))⟩

/-- Counterexample to C1 as stated: after `2 ^ 31` inserts of the key `0` the `int`
count of its node has wrapped around to `INT_MIN`, which `rbt_search` returns, while
the reference multiset holds `2 ^ 31` occurrences. -/
theorem rbt_search_run_overflow :
    rbt_search (run (List.replicate 2147483648 (Op.insert 0))) 0 = -2147483648 ∧
    (ref_run (List.replicate 2147483648 (Op.insert 0))).count 0 = 2147483648 ∧
    rbt_search (run (List.replicate 2147483648 (Op.insert 0))) 0 ≠
      (((ref_run (List.replicate 2147483648 (Op.insert 0))).count 0 : Nat) : Int) := by
  have h1 : rbt_search (run (List.replicate 2147483648 (Op.insert 0))) 0 = -2147483648 := by
    rw [run_replicate_insert, insert_all_replicate_overflow]
    rfl
  have h2 : (ref_run (List.replicate 2147483648 (Op.insert 0))).count 0 = 2147483648 := by
    rw [← List.map_replicate, ref_run_map_insert, Multiset.coe_count,
      List.count_replicate_self]
  refine ⟨h1, h2, ?_⟩
  rw [h1, h2]
  decide

/-- C2: every tree reached from the empty tree by `rbt_insert` and `rbt_delete`
calls satisfies the strict binary-search-tree property at every node; in particular
no two nodes hold equal keys. -/
theorem BST_run (ops : List (Op K)) : BST (run ops) ∧ (keys (run ops)).Nodup := by
  have h := run_BST ops
  refine ⟨h, ?_⟩
  rw [BST_iff_pairwise] at h
  exact h.imp (fun hab => ne_of_lt hab)

/-- C3: on every tree reached from the empty tree by `rbt_insert` and `rbt_delete`
calls, the keys `rbt_inorder` passes to the visitor are in non-decreasing order,
strictly increasing across distinct keys, and equal keys form one consecutive run
(whatever is visited between two visits of the same key is that key). -/
theorem rbt_inorder_run_sorted (ops : List (Op K)) :
    (rbt_inorder (run ops)).Pairwise (· ≤ ·) ∧
    (rbt_inorder (run ops)).Pairwise (fun a b => a ≠ b → a < b) ∧
    ∀ a x b : K, List.Sublist [a, x, b] (rbt_inorder (run ops)) → a = b → x = a := by
  have h := sorted_rbt_inorder _ (run_BST ops)
  refine ⟨h, h.imp (fun hab hne => lt_of_le_of_ne hab hne), ?_⟩
  intro a x b hs hab
  have h3 := h.sublist hs
  simp only [List.pairwise_cons, List.mem_cons, List.mem_singleton, forall_eq_or_imp,
    forall_eq] at h3
  subst hab
  exact le_antisymm h3.2.1.1 h3.1.1

/-- C4, as amended: inserting a list of keys (duplicates allowed, any order) in
which no key occurs more than `INT_MAX` times one by one into the empty tree and
running `rbt_inorder` visits exactly the ascending sorted version of the list, each
key as many times as it was inserted. -/
theorem rbt_inorder_insert_all (ks : List K) (h : ∀ k ∈ ks, ks.count k ≤ 2147483647) :
    rbt_inorder (insert_all ks) = ks.insertionSort (· ≤ ·) := by
  obtain ⟨hb, _, hr⟩ := run_bounded (ks.map Op.insert) (ref_within_int_map_insert ks h)
  rw [← insert_all_eq_run, ref_run_map_insert] at hr
  rw [← insert_all_eq_run] at hb
  have hp : (rbt_inorder (insert_all ks)).Perm ks := Multiset.coe_eq_coe.mp hr
  exact List.eq_of_perm_of_sorted (hp.trans (List.perm_insertionSort _ ks).symm)
    (sorted_rbt_inorder _ hb) (List.sorted_insertionSort _ ks)

/-- Witness for C4 as amended (scenario 1): "banana", "apple", "cherry", and "apple"
once more. -/
theorem rbt_inorder_insert_all_witness :
    (∀ k ∈ [c_string "banana", c_string "apple", c_string "cherry", c_string "apple"],
      [c_string "banana", c_string "apple", c_string "cherry", c_string "apple"].count k
        ≤ 2147483647) ∧
    rbt_inorder (insert_all
      [c_string "banana", c_string "apple", c_string "cherry", c_string "apple"]) =
      [c_string "banana", c_string "apple", c_string "cherry",
        c_string "apple"].insertionSort (· ≤ ·) :=
  ⟨by decide, rbt_inorder_insert_all _ (by decide)⟩

/-- Counterexample to C4 as stated: after `2 ^ 31` inserts of the key `0` the count
has wrapped around to `INT_MIN`, the loop `for (i = 0; i < r->count; i++)` makes no
call, and `rbt_inorder` visits nothing, while the sorted list has `2 ^ 31` entries. -/
theorem rbt_inorder_insert_all_overflow :
    rbt_inorder (insert_all (List.replicate 2147483648 0)) = [] ∧
    ((List.replicate 2147483648 0).insertionSort (· ≤ ·)).length = 2147483648 ∧
    rbt_inorder (insert_all (List.replicate 2147483648 0)) ≠
      (List.replicate 2147483648 0).insertionSort (· ≤ ·) := by
  have h1 : rbt_inorder (insert_all (List.replicate 2147483648 0)) = [] := by
    rw [insert_all_replicate_overflow]
    rfl
  have h2 : ((List.replicate 2147483648 0).insertionSort (· ≤ ·)).length = 2147483648 := by
    rw [List.length_insertionSort, List.length_replicate]
  refine ⟨h1, h2, fun h => ?_⟩
  rw [h1] at h
  rw [← h] at h2
  exact absurd h2 (by decide)

/-- C5: for every tree with the strict binary-search-tree property and every count
at least one, and every key `k`, the `rbt_inorder` visits of `rbt_delete t k` are
those of `t` with exactly one occurrence of `k` removed (the same sequence when `k`
does not occur); this covers the case of a node with count one and two children. -/
theorem rbt_inorder_delete_erase (t : rbt K) (k : K) (h : BST t) (hc : counts_pos t) :
    rbt_inorder (rbt_delete t k) = (rbt_inorder t).erase k :=
  rbt_inorder_rbt_delete t k h hc

/-- Witness for C5: the root holds the key with count one and has two children; the
successor holds count two. -/
theorem rbt_inorder_delete_erase_witness :
    BST (node 2 1 BLACK (node 1 1 RED NULL NULL)
      (node 4 1 RED (node 3 2 BLACK NULL NULL) NULL)) ∧
    counts_pos (node 2 1 BLACK (node 1 1 RED NULL NULL)
      (node 4 1 RED (node 3 2 BLACK NULL NULL) NULL)) ∧
    rbt_inorder (rbt_delete (node 2 1 BLACK (node 1 1 RED NULL NULL)
      (node 4 1 RED (node 3 2 BLACK NULL NULL) NULL)) 2) =
      (rbt_inorder (node 2 1 BLACK (node 1 1 RED NULL NULL)
        (node 4 1 RED (node 3 2 BLACK NULL NULL) NULL))).erase 2 :=
  ⟨by decide, by decide, rbt_inorder_delete_erase _ 2 (by decide) (by decide)⟩

/-- C6, as amended: on a tree reached from the empty tree by inserts and deletes in
which `rbt_search` finds no occurrence of `k`, calling `rbt_insert` with `k` `n` times,
for `n` not greater than `INT_MAX`, makes `rbt_search` return `n`; then calling
`rbt_delete` with `k` `m <= n` times makes it return `n - m`, so `0` after `n`
deletes. -/
theorem rbt_search_insert_n_delete_n (ops : List (Op K)) (k : K) (n m : Nat)
    (h0 : rbt_search (run ops) k = 0) (hn : n ≤ 2147483647) (hm : m ≤ n) :
    rbt_search (insert_n k n (run ops)) k = n ∧
    rbt_search (delete_n k m (insert_n k n (run ops))) k = (n : Int) - m ∧
    rbt_search (delete_n k n (insert_n k n (run ops))) k = 0 := by
  obtain ⟨h1, h3⟩ := rbt_search_insert_n_of_zero k n (run ops) (run_BST ops) h0
    (by unfold INT_MAX; exact_mod_cast hn)
  refine ⟨h3, ?_, ?_⟩
  · rw [rbt_search_delete_n k m _ h1 (by rw [h3]; exact_mod_cast hm), h3]
  · rw [rbt_search_delete_n k n _ h1 (by rw [h3]), h3]
    exact sub_self _

/-- Witness for C6 as amended (scenario 2): on the empty tree, insert "x" three times
and delete it once. -/
theorem rbt_search_insert_n_delete_n_witness :
    rbt_search (run ([] : List (Op (List Nat)))) (c_string "x") = 0 ∧ 3 ≤ 2147483647 ∧
    1 ≤ 3 ∧
    (rbt_search (insert_n (c_string "x") 3 (run [])) (c_string "x") = (3 : Nat) ∧
    rbt_search (delete_n (c_string "x") 1 (insert_n (c_string "x") 3 (run [])))
      (c_string "x") = ((3 : Nat) : Int) - (1 : Nat) ∧
    rbt_search (delete_n (c_string "x") 3 (insert_n (c_string "x") 3 (run [])))
      (c_string "x") = 0) :=
  ⟨by decide, by decide, by decide,
    rbt_search_insert_n_delete_n [] (c_string "x") 3 1 (by decide) (by decide) (by decide)⟩

/-- Counterexample to C6 as stated: on the empty tree, where `rbt_search` finds no
occurrence of `0`, after `n = 2 ^ 31` inserts of `0` the `int` count has wrapped
around and `rbt_search` returns `INT_MIN`, not `n`. -/
theorem rbt_search_insert_n_overflow :
    rbt_search (run ([] : List (Op Nat))) 0 = 0 ∧ 1 ≤ 2147483648 ∧
    rbt_search (insert_n 0 2147483648 (run ([] : List (Op Nat)))) 0 = -2147483648 ∧
    rbt_search (insert_n 0 2147483648 (run ([] : List (Op Nat)))) 0 ≠
      ((2147483648 : Nat) : Int) := by
  have h : rbt_search (insert_n 0 2147483648 (run ([] : List (Op Nat)))) 0 =
      -2147483648 := by
    rw [insert_n_eq_foldl]
    show rbt_search (insert_all (List.replicate 2147483648 0)) 0 = _
    rw [insert_all_replicate_overflow]
    rfl
  refine ⟨rfl, by decide, h, ?_⟩
  rw [h]
  decide

/-- C7: in every tree built from the empty tree by `rbt_insert` calls only, no red
node has a red child. -/
theorem no_red_red_insert_all (ks : List K) : no_red_red (insert_all ks) := by
  obtain ⟨⟨n, h⟩, _⟩ := RB_insert_all ks
  exact no_red_red_of_RB h

/-- C8: every tree built from the empty tree by `rbt_insert` calls only has as many
nodes as there are distinct keys among the inserted ones, and its height `h` and
number of nodes `n` satisfy `2 ^ h <= (n + 1) ^ 2`, that is `h <= 2 * log2 (n + 1)`. -/
theorem height_insert_all (ks : List K) :
    size (insert_all ks) = ks.dedup.length ∧
    2 ^ height (insert_all ks) ≤ (size (insert_all ks) + 1) ^ 2 := by
  obtain ⟨⟨n, h⟩, hb⟩ := RB_insert_all ks
  refine ⟨?_, two_pow_height_le _ n h hb⟩
  rw [size_eq_length_keys]
  apply List.Perm.length_eq
  have hnd : (keys (insert_all ks)).Nodup := by
    have h := run_BST (ks.map Op.insert)
    rw [← insert_all_eq_run, BST_iff_pairwise] at h
    exact h.imp (fun hab => ne_of_lt hab)
  rw [List.perm_ext_iff_of_nodup hnd (List.nodup_dedup ks)]
  intro x
  rw [List.mem_dedup, mem_keys_insert_all]

/-- C9: deleting a key that no node of the tree holds returns the tree unchanged
(same shape, keys, counts and colours); this holds for every tree, in particular for
every tree with the binary-search-tree property and for the empty tree. -/
theorem rbt_delete_absent (t : rbt K) (k : K) (h : k ∉ keys t) : rbt_delete t k = t :=
  rbt_delete_of_not_mem t k h

/-- Witness for C9: a key absent from a three-node search tree. -/
theorem rbt_delete_absent_witness :
    (5 ∉ keys (node 2 1 BLACK (node 1 1 RED NULL NULL) (node 4 3 RED NULL NULL))) ∧
    rbt_delete (node 2 1 BLACK (node 1 1 RED NULL NULL) (node 4 3 RED NULL NULL)) 5 =
      node 2 1 BLACK (node 1 1 RED NULL NULL) (node 4 3 RED NULL NULL) :=
  ⟨by decide, rbt_delete_absent _ 5 (by decide)⟩

/-- C10: when the node reached by the search descent for `k` holds `k` with a count
greater than one (that is, `rbt_search t k > 1`), `rbt_delete t k` is `t` with the
count of that node smaller by one: shape, keys, colours and all other counts are
unchanged. -/
theorem rbt_delete_decrements (t : rbt K) (k : K) (h : 1 < rbt_search t k) :
    rbt_delete t k = decrement_count t k ∧
    skeleton (rbt_delete t k) = skeleton t ∧
    rbt_search (rbt_delete t k) k = rbt_search t k - 1 ∧
    ∀ k', k' ≠ k → rbt_search (rbt_delete t k) k' = rbt_search t k' := by
  have h1 := rbt_delete_eq_decrement_count t k h
  rw [h1]
  exact ⟨rfl, skeleton_decrement_count t k, rbt_search_decrement_count_self t k h,
    fun k' hk => rbt_search_decrement_count_of_ne t k k' hk⟩

/-- Witness for C10: the right child holds the key with count three. -/
theorem rbt_delete_decrements_witness :
    1 < rbt_search (node 2 1 BLACK (node 1 1 RED NULL NULL) (node 4 3 RED NULL NULL)) 4 ∧
    (rbt_delete (node 2 1 BLACK (node 1 1 RED NULL NULL) (node 4 3 RED NULL NULL)) 4 =
      decrement_count (node 2 1 BLACK (node 1 1 RED NULL NULL) (node 4 3 RED NULL NULL)) 4 ∧
    skeleton (rbt_delete (node 2 1 BLACK (node 1 1 RED NULL NULL) (node 4 3 RED NULL NULL)) 4) =
      skeleton (node 2 1 BLACK (node 1 1 RED NULL NULL) (node 4 3 RED NULL NULL)) ∧
    rbt_search (rbt_delete (node 2 1 BLACK (node 1 1 RED NULL NULL)
        (node 4 3 RED NULL NULL)) 4) 4 =
      rbt_search (node 2 1 BLACK (node 1 1 RED NULL NULL) (node 4 3 RED NULL NULL)) 4 - 1 ∧
    ∀ k', k' ≠ 4 →
      rbt_search (rbt_delete (node 2 1 BLACK (node 1 1 RED NULL NULL)
        (node 4 3 RED NULL NULL)) 4) k' =
      rbt_search (node 2 1 BLACK (node 1 1 RED NULL NULL) (node 4 3 RED NULL NULL)) k') :=
  ⟨by decide, rbt_delete_decrements _ 4 (by decide)⟩

/-- C11, as amended: on every tree with the binary-search-tree property in which no
red node has a red child (every tree built from the empty tree by `rbt_insert` calls
only is one), inserting a key that is present, and whose count is an `int` below
`INT_MAX`, changes nothing but the count of the node holding it, which grows by one,
and the colour of the root, which becomes black: no rotation is performed, shape
and keys are those of the tree. -/
theorem rbt_insert_present (t : rbt K) (key : K) (hb : BST t) (hn : no_red_red t)
    (hk : key ∈ keys t) (hlo : INT_MIN ≤ rbt_search t key)
    (hhi : rbt_search t key < INT_MAX) :
    rbt_insert t key = set_colour BLACK (increment_count t key) ∧
    shape (rbt_insert t key) = shape t := by
  have h : rbt_insert t key = set_colour BLACK (increment_count t key) := by
    rw [rbt_insert, rbt_insert_helper_of_mem t key hb hn hk hlo hhi]
  refine ⟨h, ?_⟩
  rw [h]
  have hs : ∀ u : rbt K, shape (increment_count u key) = shape u := by
    intro u
    induction u with
    | NULL => rfl
    | node k c col l r ihl ihr =>
      unfold increment_count
      split_ifs <;> simp [shape, ihl, ihr]
  have hc : ∀ u : rbt K, shape (set_colour BLACK u) = shape u := by
    intro u
    cases u <;> rfl
  rw [hc, hs]

/-- Witness for C11 as amended: inserting `2` again into the tree built by inserting
`1, 2, 3`. -/
theorem rbt_insert_present_witness :
    BST (insert_all [1, 2, 3]) ∧ no_red_red (insert_all [1, 2, 3]) ∧
    2 ∈ keys (insert_all [1, 2, 3]) ∧ INT_MIN ≤ rbt_search (insert_all [1, 2, 3]) 2 ∧
    rbt_search (insert_all [1, 2, 3]) 2 < INT_MAX ∧
    (rbt_insert (insert_all [1, 2, 3]) 2 =
      set_colour BLACK (increment_count (insert_all [1, 2, 3]) 2) ∧
    shape (rbt_insert (insert_all [1, 2, 3]) 2) = shape (insert_all [1, 2, 3])) :=
  ⟨by decide, by decide, by decide, by decide, by decide,
    rbt_insert_present _ 2 (by decide) (by decide) (by decide) (by decide) (by decide)⟩

/-- Counterexample to C11 as stated: after inserting `1, ..., 6` and deleting `5`, the
red node `4` has the red child `6`; inserting the present key `6` then rotates the
root to the left, so the tree is rooted at `4` instead of `2`. -/
theorem rbt_insert_present_rotates :
    run [Op.insert 1, Op.insert 2, Op.insert 3, Op.insert 4, Op.insert 5, Op.insert 6,
        Op.delete 5] =
      node 2 1 BLACK (node 1 1 BLACK NULL NULL)
        (node 4 1 RED (node 3 1 BLACK NULL NULL) (node 6 1 RED NULL NULL)) ∧
    6 ∈ keys (run [Op.insert 1, Op.insert 2, Op.insert 3, Op.insert 4, Op.insert 5,
        Op.insert 6, Op.delete 5]) ∧
    rbt_insert (run [Op.insert 1, Op.insert 2, Op.insert 3, Op.insert 4, Op.insert 5,
        Op.insert 6, Op.delete 5]) 6 =
      node 4 1 BLACK
        (node 2 1 RED (node 1 1 BLACK NULL NULL) (node 3 1 BLACK NULL NULL))
        (node 6 2 RED NULL NULL) ∧
    shape (rbt_insert (run [Op.insert 1, Op.insert 2, Op.insert 3, Op.insert 4,
        Op.insert 5, Op.insert 6, Op.delete 5]) 6) ≠
      shape (run [Op.insert 1, Op.insert 2, Op.insert 3, Op.insert 4, Op.insert 5,
        Op.insert 6, Op.delete 5]) := by
  have h6 : run [Op.insert 1, Op.insert 2, Op.insert 3, Op.insert 4, Op.insert 5,
      Op.insert 6] =
      node 2 1 BLACK (node 1 1 BLACK NULL NULL)
        (node 4 1 RED (node 3 1 BLACK NULL NULL)
          (node 5 1 BLACK NULL (node 6 1 RED NULL NULL))) := by
    decide
  have h : run [Op.insert 1, Op.insert 2, Op.insert 3, Op.insert 4, Op.insert 5,
      Op.insert 6, Op.delete 5] =
      node 2 1 BLACK (node 1 1 BLACK NULL NULL)
        (node 4 1 RED (node 3 1 BLACK NULL NULL) (node 6 1 RED NULL NULL)) := by
    show run ([Op.insert 1, Op.insert 2, Op.insert 3, Op.insert 4, Op.insert 5,
      Op.insert 6] ++ [Op.delete 5]) = _
    rw [run_append_singleton, h6, apply_op,
      rbt_delete_gt _ _ _ _ _ _ (by decide), rbt_delete_gt _ _ _ _ _ _ (by decide),
      rbt_delete_eq]
    rfl
  rw [h]
  exact ⟨rfl, by decide, by decide, by decide⟩

/-- C12, as amended: on every tree reached from the empty tree by inserts and deletes
during which no key ever has more than `INT_MAX` occurrences, for each of
`rbt_inorder`, `rbt_preorder` and `rbt_postorder` the number of visitor calls made
with a key `k` is `rbt_search t k`, the total number of visitor calls is the sum of
the counts of all nodes, and the three traversals make the same visits up to order. -/
theorem traversal_visit_counts (ops : List (Op K)) (k : K) (h : ref_within_int ops) :
    ((rbt_inorder (run ops)).count k : Int) = rbt_search (run ops) k ∧
    ((rbt_preorder (run ops)).count k : Int) = rbt_search (run ops) k ∧
    ((rbt_postorder (run ops)).count k : Int) = rbt_search (run ops) k ∧
    ((rbt_inorder (run ops)).length : Int) = sum_counts (run ops) ∧
    ((rbt_preorder (run ops)).length : Int) = sum_counts (run ops) ∧
    ((rbt_postorder (run ops)).length : Int) = sum_counts (run ops) ∧
    (rbt_preorder (run ops)).Perm (rbt_inorder (run ops)) ∧
    (rbt_postorder (run ops)).Perm (rbt_inorder (run ops)) := by
  obtain ⟨hb, hc, _⟩ := run_bounded ops h
  have h1 := rbt_search_eq_count _ k hb hc
  have h2 := length_rbt_inorder _ hc
  have hpre := rbt_preorder_perm (run ops)
  have hpost := rbt_postorder_perm (run ops)
  refine ⟨h1.symm, ?_, ?_, h2, ?_, ?_, hpre, hpost⟩
  · rw [hpre.count_eq, h1]
  · rw [hpost.count_eq, h1]
  · rw [hpre.length_eq, h2]
  · rw [hpost.length_eq, h2]

/-- Witness for C12 as amended: the key `2` after five calls. -/
theorem traversal_visit_counts_witness :
    ref_within_int [Op.insert 2, Op.insert 1, Op.insert 2, Op.insert 3, Op.delete 1] ∧
    ((rbt_preorder (run [Op.insert 2, Op.insert 1, Op.insert 2, Op.insert 3,
      Op.delete 1])).count 2 : Int) =
      rbt_search (run [Op.insert 2, Op.insert 1, Op.insert 2, Op.insert 3,
        Op.delete 1]) 2 :=
  ⟨ref_within_int_of_length _ (by decide),
    (traversal_visit_counts _ 2 (ref_within_int_of_length _ (by decide))).2.1⟩

/-- Counterexample to C12 as stated: after `2 ^ 31` inserts of the key `0` the count
of its node is `INT_MIN`; `rbt_search` returns it and the sum of the counts is
`INT_MIN`, while each traversal makes no visitor call at all. -/
theorem traversal_visit_counts_overflow :
    rbt_inorder (run (List.replicate 2147483648 (Op.insert 0))) = [] ∧
    rbt_preorder (run (List.replicate 2147483648 (Op.insert 0))) = [] ∧
    rbt_postorder (run (List.replicate 2147483648 (Op.insert 0))) = [] ∧
    rbt_search (run (List.replicate 2147483648 (Op.insert 0))) 0 = -2147483648 ∧
    sum_counts (run (List.replicate 2147483648 (Op.insert 0))) = -2147483648 ∧
    ((rbt_inorder (run (List.replicate 2147483648 (Op.insert 0)))).count 0 : Int) ≠
      rbt_search (run (List.replicate 2147483648 (Op.insert 0))) 0 ∧
    ((rbt_inorder (run (List.replicate 2147483648 (Op.insert 0)))).length : Int) ≠
      sum_counts (run (List.replicate 2147483648 (Op.insert 0))) := by
  rw [run_replicate_insert, insert_all_replicate_overflow]
  exact ⟨rfl, rfl, rfl, rfl, rfl, by decide, by decide⟩

/-- C13, as amended: in every tree reached from the empty tree by inserts and deletes
during which no key ever has more than `INT_MAX` occurrences, every node has
`count >= 1` (a delete that uses up a key removes its node, also when the counts are
swapped with the successor). -/
theorem counts_pos_run (ops : List (Op K)) (h : ref_within_int ops) :
    counts_pos (run ops) :=
  (run_bounded ops h).2.1

/-- Witness for C13 as amended: a delete of a node with two children among the
calls. -/
theorem counts_pos_run_witness :
    ref_within_int [Op.insert 2, Op.insert 1, Op.insert 3, Op.insert 3, Op.delete 2] ∧
    counts_pos (run [Op.insert 2, Op.insert 1, Op.insert 3, Op.insert 3, Op.delete 2]) :=
  ⟨ref_within_int_of_length _ (by decide),
    counts_pos_run _ (ref_within_int_of_length _ (by decide))⟩

/-- Counterexample to C13 as stated: after `2 ^ 31` inserts of the key `0` the tree is
one node whose count has wrapped around to `INT_MIN`, which is below one. -/
theorem counts_pos_run_overflow :
    run (List.replicate 2147483648 (Op.insert 0)) =
      node 0 (-2147483648) BLACK NULL NULL ∧
    ¬ counts_pos (run (List.replicate 2147483648 (Op.insert 0))) := by
  rw [run_replicate_insert, insert_all_replicate_overflow]
  exact ⟨rfl, by decide⟩

/-- C14: for every tree (empty, valid or with damaged colours) and every key,
`rbt_insert` returns a non-empty tree whose root is black. -/
theorem rbt_insert_root_black (t : rbt K) (key : K) :
    ∃ k c l r, rbt_insert t key = node k c BLACK l r := by
  have h := nonNULL_rbt_insert_helper t key
  unfold rbt_insert
  cases hh : rbt_insert_helper t key with
  | NULL =>
    rw [hh] at h
    simp at h
  | node k c col l r => exact ⟨k, c, l, r, rfl⟩

/-- C15: on a node with a present right child, `left_rotate` returns the tree rooted at
the former right child, with the same in-order sequence of nodes (keys, counts and
colours), so the binary-search-tree property holds after the rotation iff it held
before; `right_rotate` does the same on a node with a present left child. -/
theorem rotations_keep_inorder (k : K) (c : Int) (col : rbt_colour) (a : rbt K)
    (k' : K) (c' : Int) (col' : rbt_colour) (b d : rbt K) :
    left_rotate (node k c col a (node k' c' col' b d)) =
      node k' c' col' (node k c col a b) d ∧
    nodes (left_rotate (node k c col a (node k' c' col' b d))) =
      nodes (node k c col a (node k' c' col' b d)) ∧
    (BST (left_rotate (node k c col a (node k' c' col' b d))) ↔
      BST (node k c col a (node k' c' col' b d))) ∧
    right_rotate (node k c col (node k' c' col' a b) d) =
      node k' c' col' a (node k c col b d) ∧
    nodes (right_rotate (node k c col (node k' c' col' a b) d)) =
      nodes (node k c col (node k' c' col' a b) d) ∧
    (BST (right_rotate (node k c col (node k' c' col' a b) d)) ↔
      BST (node k c col (node k' c' col' a b) d)) := by
  have hl : left_rotate (node k c col a (node k' c' col' b d)) =
      node k' c' col' (node k c col a b) d := rfl
  have hr : right_rotate (node k c col (node k' c' col' a b) d) =
      node k' c' col' a (node k c col b d) := rfl
  refine ⟨hl, ?_, ?_, hr, ?_, ?_⟩
  · rw [hl]
    simp [nodes]
  · rw [hl, BST_iff_pairwise, BST_iff_pairwise]
    simp [keys]
  · rw [hr]
    simp [nodes]
  · rw [hr, BST_iff_pairwise, BST_iff_pairwise]
    simp [keys]

/-- C16: for every tree in which no red node has a red child (with or without the
binary-search-tree property) and every key, at each `rbt_fix` call made during the
insertion at most one of the four double-red patterns matches the node being fixed,
so the order of the tests does not decide the outcome: the branch of whichever
pattern matches is the result, and a node matching none is returned as it is.  The
last of these calls returns the result of `rbt_insert_helper`. -/
theorem rbt_fix_calls_one_pattern (t : rbt K) (key : K) (hn : no_red_red t) :
    (rbt_fix_calls t key).getLast?.map rbt_fix = some (rbt_insert_helper t key) ∧
    ∀ x ∈ rbt_fix_calls t key,
      patterns_matching x ≤ 1 ∧
      (pattern_LL x = true → rbt_fix x = fix_LL x) ∧
      (pattern_LR x = true → rbt_fix x = fix_LR x) ∧
      (pattern_RL x = true → rbt_fix x = fix_RL x) ∧
      (pattern_RR x = true → rbt_fix x = fix_RR x) ∧
      (patterns_matching x = 0 → rbt_fix x = x) := by
  refine ⟨rbt_fix_getLast_rbt_fix_calls t key, fun x hx => ?_⟩
  have h := patterns_matching_rbt_fix_calls t key hn x hx
  exact ⟨h, rbt_fix_of_patterns_matching_le_one x h⟩

/-- Witness for C16: inserting `4` into the tree built by inserting `1, 2, 3`, where
the call on the root sees the red child `3` with its new red child `4`. -/
theorem rbt_fix_calls_one_pattern_witness :
    no_red_red (insert_all [1, 2, 3]) ∧
    ((rbt_fix_calls (insert_all [1, 2, 3]) 4).getLast?.map rbt_fix =
      some (rbt_insert_helper (insert_all [1, 2, 3]) 4) ∧
    ∀ x ∈ rbt_fix_calls (insert_all [1, 2, 3]) 4,
      patterns_matching x ≤ 1 ∧
      (pattern_LL x = true → rbt_fix x = fix_LL x) ∧
      (pattern_LR x = true → rbt_fix x = fix_LR x) ∧
      (pattern_RL x = true → rbt_fix x = fix_RL x) ∧
      (pattern_RR x = true → rbt_fix x = fix_RR x) ∧
      (patterns_matching x = 0 → rbt_fix x = x)) :=
  ⟨by decide, rbt_fix_calls_one_pattern _ 4 (by decide)⟩

/-- C17: inserting "a", "b", "c", "d", "e", "f" in that order gives a tree with no red
node with a red child and equal numbers of black nodes on all paths; deleting "e"
from it splices the black node "e" out and leaves its red child "f" under the red
node "d", so the resulting tree has a red node with a red child and paths from the
root to an empty position with different numbers of black nodes. -/
theorem rbt_delete_breaks_colours :
    ∃ (ks : List (List Nat)) (k : List Nat),
      (no_red_red (insert_all ks) ∧ ∃ n, ∀ x ∈ path_blacks (insert_all ks), x = n) ∧
      rbt_delete (insert_all ks) k =
        node (c_string "b") 1 BLACK (node (c_string "a") 1 BLACK NULL NULL)
          (node (c_string "d") 1 RED (node (c_string "c") 1 BLACK NULL NULL)
            (node (c_string "f") 1 RED NULL NULL)) ∧
      ¬ no_red_red (rbt_delete (insert_all ks) k) ∧
      ∃ x ∈ path_blacks (rbt_delete (insert_all ks) k),
        ∃ y ∈ path_blacks (rbt_delete (insert_all ks) k), x ≠ y := by
  refine ⟨[c_string "a", c_string "b", c_string "c", c_string "d", c_string "e",
    c_string "f"], c_string "e", ⟨no_red_red_of_RB (RB_insert_all _).1.choose_spec,
      _, path_blacks_of_RB (RB_insert_all _).1.choose_spec⟩, ?_⟩
  have h6 : insert_all [c_string "a", c_string "b", c_string "c", c_string "d",
      c_string "e", c_string "f"] =
      node (c_string "b") 1 BLACK (node (c_string "a") 1 BLACK NULL NULL)
        (node (c_string "d") 1 RED (node (c_string "c") 1 BLACK NULL NULL)
          (node (c_string "e") 1 BLACK NULL (node (c_string "f") 1 RED NULL NULL))) := by
    decide
  have hd : rbt_delete (insert_all [c_string "a", c_string "b", c_string "c",
      c_string "d", c_string "e", c_string "f"]) (c_string "e") =
      node (c_string "b") 1 BLACK (node (c_string "a") 1 BLACK NULL NULL)
        (node (c_string "d") 1 RED (node (c_string "c") 1 BLACK NULL NULL)
          (node (c_string "f") 1 RED NULL NULL)) := by
    rw [h6, rbt_delete_gt _ _ _ _ _ _ (by decide), rbt_delete_gt _ _ _ _ _ _ (by decide),
      rbt_delete_eq]
    rfl
  rw [hd]
  exact ⟨rfl, by decide, by decide⟩

/-- C18: when `rbt_delete` is called with the key of a node that has a count not
greater than one (count one, in a tree with all counts positive) and two children, in
a tree with the binary-search-tree property, the recursive call on the right subtree,
made after the key and count were swapped with the successor, only goes left, as many
times as the successor lies below the root of the right subtree, and ends there in
the one-child or the leaf case; it returns the right subtree without the successor
node (whose right child takes its place), which has one node less.  `rbt_delete`
terminates on every tree: it makes at most `height + 1` calls. -/
theorem rbt_delete_two_children (k : K) (c : Int) (col : rbt_colour) (l r : rbt K)
    (hb : BST (node k c col l r)) (hc : c ≤ 1) (hl : nonNULL l = true)
    (hr : nonNULL r = true) :
    rbt_delete (node k c col l r) k =
      node (successor k c r).1 (successor k c r).2 col l (remove_successor r) ∧
    rbt_delete (set_successor k c r) k = remove_successor r ∧
    (∃ last, (last = delete_case.one_child ∨ last = delete_case.leaf) ∧
      rbt_delete_cases (set_successor k c r) k =
        List.replicate (left_depth r - 1) delete_case.go_left ++ [last] ∧
      rbt_delete_cases (node k c col l r) k =
        delete_case.two_children ::
          (List.replicate (left_depth r - 1) delete_case.go_left ++ [last])) ∧
    entries (remove_successor r) = (entries r).tail ∧
    size (remove_successor r) + 1 = size r ∧
    ∀ (t : rbt K) (key : K), (rbt_delete_cases t key).length ≤ height t + 1 := by
  have hc' : ¬ c > 1 := by omega
  obtain ⟨h1, last, hlast, h2⟩ := rbt_delete_set_successor r k c hc' hr hb.2.1
  refine ⟨?_, h1, ⟨last, hlast, h2, ?_⟩, entries_remove_successor r,
    size_remove_successor r hr, length_rbt_delete_cases⟩
  · rw [rbt_delete_eq, if_neg hc', hl, hr, h1]
    rfl
  · rw [rbt_delete_cases_eq, if_neg hc', hl, hr, h2]
    rfl

/-- Witness for C18: the root holds the key with count one and has two children; the
successor `3` is the left child of the right child. -/
theorem rbt_delete_two_children_witness :
    BST (node 2 1 BLACK (node 1 1 RED NULL NULL)
      (node 4 1 RED (node 3 2 BLACK NULL NULL) NULL)) ∧
    (1 : Int) ≤ 1 ∧ nonNULL (node 1 1 RED (NULL : rbt Nat) NULL) = true ∧
    nonNULL (node 4 1 RED (node 3 2 BLACK NULL NULL) NULL) = true ∧
    rbt_delete (node 2 1 BLACK (node 1 1 RED NULL NULL)
      (node 4 1 RED (node 3 2 BLACK NULL NULL) NULL)) 2 =
      node 3 2 BLACK (node 1 1 RED NULL NULL) (node 4 1 RED NULL NULL) ∧
    rbt_delete_cases (node 2 1 BLACK (node 1 1 RED NULL NULL)
      (node 4 1 RED (node 3 2 BLACK NULL NULL) NULL)) 2 =
      [delete_case.two_children, delete_case.go_left, delete_case.leaf] := by
  have h := rbt_delete_two_children 2 1 BLACK (node 1 1 RED NULL NULL)
    (node 4 1 RED (node 3 2 BLACK NULL NULL) NULL) (by decide) (by decide) rfl rfl
  refine ⟨by decide, by decide, rfl, rfl, h.1, ?_⟩
  obtain ⟨last, hlast, h1, h2⟩ := h.2.2.1
  rw [h2]
  have h3 : rbt_delete_cases (set_successor 2 1
      (node 4 1 RED (node 3 2 BLACK NULL NULL) NULL)) 2 =
      [delete_case.go_left, delete_case.leaf] := by
    simp [set_successor, rbt_delete_cases, strcmp]
  rw [h3] at h1
  rw [← h1]

/-- C19: in every tree built from the empty tree by `rbt_insert` calls only, every path
from the root to an empty position contains the same number of black nodes. -/
theorem black_height_insert_all (ks : List K) :
    ∃ n, ∀ x ∈ path_blacks (insert_all ks), x = n := by
  obtain ⟨⟨n, h⟩, _⟩ := RB_insert_all ks
  exact ⟨n, path_blacks_of_RB h⟩

/-- C20: on every tree, whatever its colours, and for every key, `rbt_fix` and
`rbt_insert` never read or write a field of an absent node: the versions of
`rbt_fix`, `rbt_insert_helper` and `rbt_insert` in which every field access, rotation
and recolouring is checked are defined and return what the functions return;
`rbt_insert_helper` never returns the empty tree, so the root recolouring of
`rbt_insert` is defined. -/
theorem rbt_insert_never_reads_absent (t : rbt K) (key : K) :
    rbt_fix_checked t = some (rbt_fix t) ∧
    rbt_insert_helper_checked t key = some (rbt_insert_helper t key) ∧
    nonNULL (rbt_insert_helper t key) = true ∧
    rbt_insert_checked t key = some (rbt_insert t key) :=
  ⟨rbt_fix_checked_eq t, rbt_insert_helper_checked_eq t key,
    nonNULL_rbt_insert_helper t key, rbt_insert_checked_eq t key⟩

/-! ### The scenarios of the specification, evaluated -/

/-- Scenario 1: inserting "banana", "apple", "cherry" makes `rbt_inorder` visit
"apple", "banana", "cherry", each once. -/
theorem scenario_banana_apple_cherry :
    rbt_inorder (insert_all [c_string "banana", c_string "apple", c_string "cherry"]) =
      [c_string "apple", c_string "banana", c_string "cherry"] := by
  decide

/-- Scenario 4: inserting the keys `0, ..., 49` in increasing order gives a tree of
50 nodes and height 9, below `2 * log2 51`. -/
theorem scenario_fifty_increasing :
    size (insert_all (List.range 50)) = 50 ∧ height (insert_all (List.range 50)) = 9 ∧
      2 ^ 9 ≤ (50 + 1) ^ 2 := by
  decide

/-- The checks of the checked model are not void: a left rotation of a node without a
right child, and a colour flip of a node without children, are undefined. -/
theorem checked_access_of_absent_node :
    left_rotate_checked (node 1 1 RED (NULL : rbt Nat) NULL) = none ∧
    right_rotate_checked (node 1 1 RED (NULL : rbt Nat) NULL) = none ∧
    colour_flip_checked (node 1 1 RED (NULL : rbt Nat) NULL) = none ∧
    rbt_insert_checked (node 2 1 BLACK (node 1 1 RED NULL NULL) NULL) 3 =
      some (node 2 1 BLACK (node 1 1 RED NULL NULL) (node 3 1 RED NULL NULL)) := by
  decide

end Claims

end RBT
